import Mathlib

/-!
Verification development for the huff2 compiler core (middle/back end of a
macro assembler for an EVM-style stack machine).  The Lean definitions below
are a shallow embedding of the Rust sources:
  crates/ast/src/ast.rs, crates/ast/src/util.rs,
  crates/analysis/src/lib.rs, crates/analysis/src/label_stack.rs,
  crates/compilation/src/lib.rs, crates/cli/src/versions.rs, cli/src/main.rs.
Machine integers (U256, u8, usize) are modelled as `Nat`; byte strings as
`List Nat`; `&str` names as `String`.  Spans are diagnostic metadata only and
are dropped.  Fallible code (Rust panics / `unwrap` / `expect`) is modelled
with `Option`; recursion whose termination the Rust code ensures dynamically
(via its recursion check) is given explicit fuel, with `none` for exhaustion.
`BTreeMap` is modelled as an association list with unique keys (kept in
first-insertion order; claims never depend on the map's key iteration
order).
-/

namespace Huff2

/-! ## Opcodes and assembly items (interface of the external `evm_glue` crate,
as used by `compilation/src/lib.rs`).  Push opcodes `PUSH1`..`PUSH32` are
modelled as `push width imm` where `imm` is the big-endian immediate. -/

inductive Opcode where
  | STOP
  | ADD
  | MSTORE
  | MSIZE
  | RETURN
  | RETURNDATASIZE
  | DUP1
  | CODECOPY
  | JUMPDEST
  | PUSH0
  | push (width : Nat) (imm : List Nat)
  deriving DecidableEq, Repr

inductive RefType where
  | direct (m : Nat)
  | delta (s e : Nat)
  deriving DecidableEq, Repr

structure MarkRef where
  refType : RefType
  isPushed : Bool
  setSize : Option Nat
  deriving DecidableEq, Repr

inductive Asm where
  | op (o : Opcode)
  | mark (id : Nat)
  | ref (r : MarkRef)
  | data (bytes : List Nat)
  deriving DecidableEq, Repr

/-- `Asm::mref(m)`: a pushed direct reference to mark `m`. -/
def Asm.mref (m : Nat) : Asm :=
  Asm.ref ⟨RefType.direct m, true, none⟩

/-- `Asm::delta_ref(s, e)`: a pushed start/end mark delta reference. -/
def Asm.deltaRef (s e : Nat) : Asm :=
  Asm.ref ⟨RefType.delta s e, true, none⟩

/-! ## Byte-length and big-endian encodings (alloy `U256::byte_len`,
`U256::to_be_bytes`, `U256::from_be_slice`). -/

/-- Number of bytes required to represent `v` (0 for `v = 0`), as
`U256::byte_len`. -/
def byteLenSlow (v : Nat) : Nat :=
  if v = 0 then 0 else byteLenSlow (v / 256) + 1
decreasing_by exact Nat.div_lt_self (Nat.pos_of_ne_zero (by assumption)) (by omega)

/-- Structurally recursive unfolding of `byteLenSlow` (33 division steps
cover every 256-bit value, the fallback keeps the function total); this
variant reduces inside the kernel, which the well-founded recursion of
`byteLenSlow` does not. -/
def byteLenAux : Nat → Nat → Nat
  | 0, v => byteLenSlow v
  | fuel + 1, v => if v = 0 then 0 else byteLenAux fuel (v / 256) + 1

def byteLen (v : Nat) : Nat := byteLenAux 33 v

/-- Big-endian encoding of `v` in exactly `w` bytes (high bytes truncated). -/
def beBytes : Nat → Nat → List Nat
  | 0, _ => []
  | w + 1, v => beBytes w (v / 256) ++ [v % 256]

/-- `U256::from_be_slice`: interpret bytes big-endian. -/
def fromBe (bytes : List Nat) : Nat :=
  bytes.foldl (fun acc b => acc * 256 + b) 0

/-! ## Push selection: `ast/src/util.rs::u256_as_push` and
`compilation/src/lib.rs::u256_to_asm`. -/

/-- `u256_as_push`: minimum-width push opcode for `v`; values of byte length
0 and 1 both use `PUSH1` (source arms `0..=1 => PUSH1`, `k => PUSHk`). -/
def u256AsPush (v : Nat) : Opcode :=
  Opcode.push (max 1 (byteLen v)) (beBytes (max 1 (byteLen v)) v)

/-- `u256_to_asm`: `PUSH0` when the value is zero-length and the EVM version
allows it, else the minimal push. -/
def u256ToAsm (v : Nat) (allowPush0 : Bool) : Asm :=
  Asm.op (if byteLen v = 0 && allowPush0 then Opcode.PUSH0 else u256AsPush v)

/-! ## EVM versions: `cli/src/versions.rs`. -/

inductive EvmVersion where
  | paris
  | shanghai
  | cancun
  | eof
  deriving DecidableEq, Repr

def EvmVersion.allowsPush0 : EvmVersion → Bool
  | .shanghai => true
  | .cancun => true
  | .eof => true
  | .paris => false

/-! ## Keccak-256 (external collaborator; byte-oriented sponge with rate 136,
keccak padding `0x01 … 0x80`).  Lanes are 64-bit words modelled as `Nat`
masked to 64 bits. -/

def mask64 : Nat := 18446744073709551615

def rotl64 (x n : Nat) : Nat :=
  ((x <<< n) &&& mask64) ||| (x >>> (64 - n))

def rhoOffsets : List Nat :=
  [0, 1, 62, 28, 27,
   36, 44, 6, 55, 20,
   3, 10, 43, 25, 39] ++
  [41, 45, 15, 21, 8,
   18, 2, 61, 56, 14]

def roundConstants : List Nat :=
  [0x0000000000000001, 0x0000000000008082, 0x800000000000808a, 0x8000000080008000,
   0x000000000000808b, 0x0000000080000001, 0x8000000080008081, 0x8000000000008009,
   0x000000000000008a, 0x0000000000000088, 0x0000000080008009, 0x000000008000000a,
   0x000000008000808b, 0x800000000000008b, 0x8000000000008089, 0x8000000000008003,
   0x8000000000008002, 0x8000000000000080, 0x000000000000800a, 0x800000008000000a,
   0x8000000080008081, 0x8000000000008080, 0x0000000080000001, 0x8000000080008008]

def keccakTheta (a : List Nat) : List Nat :=
  let c := (List.range 5).map (fun x =>
    a.getD x 0 ^^^ a.getD (x + 5) 0 ^^^ a.getD (x + 10) 0 ^^^
      a.getD (x + 15) 0 ^^^ a.getD (x + 20) 0)
  let d := (List.range 5).map (fun x =>
    c.getD ((x + 4) % 5) 0 ^^^ rotl64 (c.getD ((x + 1) % 5) 0) 1)
  (List.range 25).map (fun i => a.getD i 0 ^^^ d.getD (i % 5) 0)

def keccakRhoPi (a : List Nat) : List Nat :=
  (List.range 25).map (fun j =>
    let x := j % 5
    let y := j / 5
    let src := (x + 3 * y) % 5 + 5 * x
    rotl64 (a.getD src 0) (rhoOffsets.getD src 0))

def keccakChi (b : List Nat) : List Nat :=
  (List.range 25).map (fun j =>
    let x := j % 5
    let y := j / 5
    b.getD j 0 ^^^ ((b.getD ((x + 1) % 5 + 5 * y) 0 ^^^ mask64) &&& b.getD ((x + 2) % 5 + 5 * y) 0))

def keccakRound (a : List Nat) (rc : Nat) : List Nat :=
  let c := keccakChi (keccakRhoPi (keccakTheta a))
  c.set 0 (c.getD 0 0 ^^^ rc)

def keccakF (a : List Nat) : List Nat :=
  roundConstants.foldl keccakRound a

def padKeccak (msg : List Nat) : List Nat :=
  let padLen := 136 - msg.length % 136
  if padLen = 1 then msg ++ [0x81]
  else msg ++ [0x01] ++ List.replicate (padLen - 2) 0 ++ [0x80]

def leLane (bytes : List Nat) : Nat :=
  bytes.foldr (fun b acc => acc * 256 + b) 0

def leBytes : Nat → Nat → List Nat
  | 0, _ => []
  | n + 1, v => v % 256 :: leBytes n (v / 256)

def absorbBlock (st : List Nat) (block : List Nat) : List Nat :=
  keccakF ((List.range 25).map (fun i =>
    st.getD i 0 ^^^ (if i < 17 then leLane ((block.drop (8 * i)).take 8) else 0)))

def chunks136 : Nat → List Nat → List (List Nat)
  | 0, _ => []
  | _, [] => []
  | fuel + 1, l => l.take 136 :: chunks136 fuel (l.drop 136)

/-- Keccak-256 digest (32 bytes) of a byte sequence.  Validated below against
the empty-string digest and the `transfer(address,uint256)` selector from the
repository's own test expectations. -/
def keccak256 (msg : List Nat) : List Nat :=
  let padded := padKeccak msg
  let st := (chunks136 padded.length padded).foldl absorbBlock (List.replicate 25 0)
  (List.range 4).foldr (fun i acc => leBytes 8 (st.getD i 0) ++ acc) []

/-- UTF-8 bytes of an (ASCII) signature string, `String::into_bytes`. -/
def strBytes (s : String) : List Nat :=
  s.data.map Char.toNat

/-! ## AST data model: `crates/ast/src/ast.rs`.  Solidity parameter types are
`alloy_dyn_abi::DynSolType`. -/

inductive DynSolType where
  | address
  | bool
  | int (n : Nat)
  | uint (n : Nat)
  | fixedBytes (n : Nat)
  | bytes
  | string
  | array (t : DynSolType)
  | fixedArray (t : DynSolType) (n : Nat)
  | tuple (ts : List DynSolType)

/-! Structural boolean equality for `DynSolType` (the nested `tuple` payload
prevents the automatic `DecidableEq` derivation). -/

mutual

def dynSolTypeBeq : DynSolType → DynSolType → Bool
  | .address, .address => true
  | .bool, .bool => true
  | .int n, .int m => n == m
  | .uint n, .uint m => n == m
  | .fixedBytes n, .fixedBytes m => n == m
  | .bytes, .bytes => true
  | .string, .string => true
  | .array t, .array u => dynSolTypeBeq t u
  | .fixedArray t n, .fixedArray u m => dynSolTypeBeq t u && n == m
  | .tuple ts, .tuple us => dynSolTypeListBeq ts us
  | _, _ => false

def dynSolTypeListBeq : List DynSolType → List DynSolType → Bool
  | [], [] => true
  | t :: ts, u :: us => dynSolTypeBeq t u && dynSolTypeListBeq ts us
  | _, _ => false

end

theorem dynSolTypeBeq_iff : ∀ n : Nat,
    (∀ a b : DynSolType, sizeOf a ≤ n → (dynSolTypeBeq a b = true ↔ a = b)) ∧
    (∀ as bs : List DynSolType, sizeOf as ≤ n → (dynSolTypeListBeq as bs = true ↔ as = bs)) := by
  intro n
  induction n with
  | zero =>
    constructor
    · intro a b h
      exact absurd h (by cases a <;> simp_arith)
    · intro as bs h
      exact absurd h (by cases as <;> simp_arith)
  | succ n ih =>
    constructor
    · intro a b h
      cases a <;> cases b <;> simp_all [dynSolTypeBeq]
      case array.array t u =>
        exact ih.1 t u (by simp_arith at h; omega)
      case fixedArray.fixedArray t k u l =>
        rw [ih.1 t u (by simp_arith at h; omega)]
        exact fun _ => Iff.rfl
      case tuple.tuple ts us =>
        exact ih.2 ts us (by simp_arith at h; omega)
    · intro as bs h
      cases as <;> cases bs <;> simp_all [dynSolTypeListBeq]
      case cons.cons t ts u us =>
        rw [ih.1 t u (by simp_arith at h; omega), ih.2 ts us (by simp_arith at h; omega)]

instance : DecidableEq DynSolType := fun a b =>
  decidable_of_iff (dynSolTypeBeq a b = true) ((dynSolTypeBeq_iff (sizeOf a)).1 a b (Nat.le_refl _))

structure SolFunction where
  name : String
  args : List DynSolType
  rets : List DynSolType
  deriving DecidableEq

structure SolEvent where
  name : String
  args : List DynSolType
  deriving DecidableEq

structure SolError where
  name : String
  args : List DynSolType
  deriving DecidableEq

inductive ConstExpr where
  | value (v : Nat)
  | freeStoragePointer
  deriving DecidableEq, Repr

inductive Instruction where
  | op (o : Opcode)
  | variablePush (v : Nat)
  | labelReference (name : String)
  | macroArgReference (name : String)
  | constantReference (name : String)
  deriving DecidableEq, Repr

inductive Invoke where
  | macroInvoke (name : String) (args : List Instruction)
  | builtinTableStart (r : String)
  | builtinTableSize (r : String)
  | builtinCodeSize (r : String)
  | builtinCodeOffset (r : String)
  | builtinFuncSig (r : String)
  | builtinEventHash (r : String)
  | builtinError (r : String)
  deriving DecidableEq, Repr

inductive MacroStatement where
  | labelDefinition (name : String)
  | instruction (i : Instruction)
  | invoke (i : Invoke)
  deriving DecidableEq, Repr

structure MacroDef where
  name : String
  args : List String
  takesReturns : Option (Nat × Nat)
  body : List MacroStatement
  deriving DecidableEq, Repr

inductive Definition where
  | macroDef (m : MacroDef)
  | constant (name : String) (expr : ConstExpr)
  | jumptable (name : String) (labelSize : Nat) (labels : List String)
  | codeTable (name : String) (data : List Nat)
  | solFunction (f : SolFunction)
  | solEvent (e : SolEvent)
  | solError (e : SolError)
  deriving DecidableEq

/-- `IdentifiableNode::ident` for definitions. -/
def Definition.ident : Definition → String
  | .macroDef m => m.name
  | .constant name _ => name
  | .jumptable name _ _ => name
  | .codeTable name _ => name
  | .solFunction f => f.name
  | .solEvent e => e.name
  | .solError e => e.name

inductive RootSection where
  | definition (d : Definition)
  | includeSection (path : String)
  deriving DecidableEq

/-! ## Signatures and selectors: `crates/ast/src/util.rs::build_signature`,
`compute_selector`. -/

/-- Canonical rendering used by `build_signature` for one argument type.
The source supports only `Address`, `Uint(_)` (always rendered `uint256`,
whatever `N` is) and `String`; every other type hits the
`_ => panic!("Unsupported type")` arm, modelled as `none`. -/
def buildSignatureArgType : DynSolType → Option String
  | .address => some "address"
  | .uint _ => some "uint256"
  | .string => some "string"
  | _ => none

/-- `build_signature`: `name(t1,t2,…)` as bytes. -/
def buildSignature (funcName : String) (args : List DynSolType) : Option (List Nat) :=
  match args.mapM buildSignatureArgType with
  | none => none
  | some ts => some (strBytes (funcName ++ "(" ++ String.intercalate "," ts ++ ")"))

/-- The 4-byte selector pipeline of `util.rs::compute_selector` for a single
signature: `keccak256(build_signature(..))[0..4]` (`compute_selector` applies
exactly this to the function and error signatures it is given; the
compilation crate invokes it for the referenced `SolFunction`). -/
def computeSelectorBytes (funcName : String) (args : List DynSolType) : Option (List Nat) :=
  (buildSignature funcName args).map (fun sig => (keccak256 sig).take 4)

/-! ## Association lists and grouping (`BTreeMap`, `analysis::build_ident_map`). -/

/-- First-match association-list lookup (`BTreeMap::get` on our sorted lists,
for which first match is the unique match). -/
def alookup {α : Type} : List (String × α) → String → Option α
  | [], _ => none
  | (k, v) :: rest, key => if k = key then some v else alookup rest key

/-- Insert a value into a group list, appending to the existing group for
its key or adding a fresh singleton group
(`BTreeMap::entry(..).or_insert_with(..).push(..)`).  Keys are kept in
first-insertion order rather than the `BTreeMap`'s sorted order; no claim
depends on the key iteration order of this map (where a claim does depend on
the order of a definition list, the list is quantified abstractly), and
`String` comparison does not reduce inside the Lean kernel. -/
def insertGrouped {α : Type} (key : String) (v : α) : List (String × List α) → List (String × List α)
  | [] => [(key, [v])]
  | (k, vs) :: rest =>
    if key = k then (k, vs ++ [v]) :: rest
    else (k, vs) :: insertGrouped key v rest

/-- `build_ident_map`: group nodes by identifier; keys iterate in sorted
order, values keep insertion order. -/
def buildIdentMapBy {α : Type} (ident : α → String) (nodes : List α) : List (String × List α) :=
  nodes.foldl (fun m n => insertGrouped (ident n) n m) []

/-! ## Analysis diagnostics: `crates/analysis/src/errors.rs` as constructed by
`crates/analysis/src/lib.rs` (spans dropped; the `NotYetSupported` span is
dropped with them, keeping the intent). -/

inductive AnalysisError where
  | definitionNameCollision (collided : List Definition) (duplicateName : String)
  | entryPointNotFound (name : String)
  | entryPointHasArgs (target : MacroDef)
  | recursiveMacroInvocation (invocationChain : List (MacroDef × String))
  | duplicateMacroArgDefinition (scope : MacroDef) (duplicates : List String)
  | duplicateLabelDefinition (scope : MacroDef) (duplicates : List String)
  | labelNotFound (scope : MacroDef) (invocationChain : List (MacroDef × String)) (notFound : String)
  | macroArgNotFound (scope : MacroDef) (notFound : String)
  | definitionNotFound (scope : MacroDef) (defType : String) (notFound : String)
  | macroArgumentCountMismatch (scope : MacroDef) (invokeName : String) (args : List Instruction) (target : MacroDef)
  | notYetSupported (intent : String)
  deriving DecidableEq

/-- `analyze_global_for_dups`: singleton groups enter the unique mapping,
larger groups emit `DefinitionNameCollision` and are omitted. -/
def analyzeGlobalForDups : List (String × List Definition) →
    List AnalysisError × List (String × Definition)
  | [] => ([], [])
  | (name, defs) :: rest =>
    let r := analyzeGlobalForDups rest
    match defs with
    | [] => r
    | [d] => (r.1, (name, d) :: r.2)
    | many => (AnalysisError.definitionNameCollision many name :: r.1, r.2)

/-! ## Label stack: `crates/analysis/src/label_stack.rs`.  The head of
`stack` is the most recently pushed binding, so `get`'s head-first search is
the source's `.iter().rev()` innermost-first scan. -/

structure LabelStack (V : Type) where
  contextSizes : List Nat
  stack : List (String × V)
  deriving DecidableEq, Repr

def LabelStack.empty {V : Type} : LabelStack V := ⟨[], []⟩

def LabelStack.enterContext {V : Type} (s : LabelStack V) : LabelStack V :=
  ⟨s.stack.length :: s.contextSizes, s.stack⟩

/-- `leave_context`: truncate back to the saved length (a no-op when no
context is open, as the source then returns `None` without touncating). -/
def LabelStack.leaveContext {V : Type} (s : LabelStack V) : LabelStack V :=
  match s.contextSizes with
  | [] => s
  | n :: rest => ⟨rest, s.stack.drop (s.stack.length - n)⟩

def LabelStack.push {V : Type} (s : LabelStack V) (label : String) (v : V) : LabelStack V :=
  ⟨s.contextSizes, (label, v) :: s.stack⟩

def LabelStack.get {V : Type} (s : LabelStack V) (label : String) : Option V :=
  (s.stack.find? (fun p => p.1 = label)).map Prod.snd

def LabelStack.hasLabel {V : Type} (s : LabelStack V) (label : String) : Bool :=
  (s.get label).isSome

/-! ## Semantic analysis: `crates/analysis/src/lib.rs`.  The invocation stack
keeps `(caller macro, invoked name)` pairs in push order (index 0 is the
outermost caller, matching the source `Vec`). -/

abbrev GlobalDefs := List (String × List Definition)

abbrev InvokeStack := List (MacroDef × String)

def lookupDefs (gd : GlobalDefs) (name : String) : List Definition :=
  (alookup gd name).getD []

def isMacroD : Definition → Bool
  | .macroDef _ => true
  | _ => false

def isTableD : Definition → Bool
  | .codeTable _ _ => true
  | .jumptable _ _ _ => true
  | _ => false

def isConstantD : Definition → Bool
  | .constant _ _ => true
  | _ => false

def isFuncOrErrorD : Definition → Bool
  | .solFunction _ => true
  | .solError _ => true
  | _ => false

def isEventD : Definition → Bool
  | .solEvent _ => true
  | _ => false

/-- `global_exists!(global_defs, ident, pattern)`. -/
def globalExistsP (gd : GlobalDefs) (name : String) (p : Definition → Bool) : Bool :=
  (lookupDefs gd name).any p

/-- The `Macro` definitions stored under `name`. -/
def macrosNamed (gd : GlobalDefs) (name : String) : List MacroDef :=
  (lookupDefs gd name).filterMap (fun d =>
    match d with
    | .macroDef m => some m
    | _ => none)

/-- Label definitions of a macro body, in body order. -/
def labelDefsOf (m : MacroDef) : List String :=
  m.body.filterMap (fun s =>
    match s with
    | .labelDefinition l => some l
    | _ => none)

/-- `MacroAnalysis::analyze_instruction`. -/
def analyzeInstr (gd : GlobalDefs) (m : MacroDef) (ls : LabelStack Unit)
    (inv : InvokeStack) : Instruction → List AnalysisError
  | .labelReference l =>
    if ls.hasLabel l then [] else [.labelNotFound m inv l]
  | .macroArgReference a =>
    if m.args.contains a then [] else [.macroArgNotFound m a]
  | .constantReference c =>
    if globalExistsP gd c isConstantD then [] else [.definitionNotFound m "constant" c]
  | .op _ => []
  | .variablePush _ => []

/-- Duplicate-name diagnostics for a grouped ident map (arguments or labels):
one diagnostic per group of two or more, in sorted key order. -/
def dupDiags (mk : List String → AnalysisError) (groups : List (String × List String)) :
    List AnalysisError :=
  groups.filterMap (fun g => if 2 ≤ g.2.length then some (mk g.2) else none)

mutual

/-- `MacroAnalysis::analyze`: recursion check, label collection, duplicate
detection, then the statement walk; returns the accumulated diagnostics, the
`macros_to_analyze` worklist additions and the final label stack. -/
def analyzeMacro (gd : GlobalDefs) (fuel : Nat) (m : MacroDef) (ls : LabelStack Unit)
    (inv : InvokeStack) : Option (List AnalysisError × List String × LabelStack Unit) :=
  match fuel with
  | 0 => none
  | fuel + 1 =>
    if inv.any (fun p => p.1.name = m.name) then
      some ([.recursiveMacroInvocation inv], [], ls)
    else
      let ls1 := (labelDefsOf m).foldl (fun s l => s.push l ()) ls.enterContext
      let argDups := dupDiags (AnalysisError.duplicateMacroArgDefinition m)
        (buildIdentMapBy id m.args)
      let labelDups := dupDiags (AnalysisError.duplicateLabelDefinition m)
        (buildIdentMapBy id (labelDefsOf m))
      match analyzeStmts gd fuel m ls1 inv m.body with
      | none => none
      | some (ds, ws, ls2) => some (argDups ++ labelDups ++ ds, ws, ls2.leaveContext)

def analyzeStmts (gd : GlobalDefs) (fuel : Nat) (m : MacroDef) (ls : LabelStack Unit)
    (inv : InvokeStack) (stmts : List MacroStatement) :
    Option (List AnalysisError × List String × LabelStack Unit) :=
  match fuel with
  | 0 => none
  | fuel + 1 =>
    match stmts with
    | [] => some ([], [], ls)
    | stmt :: rest =>
      match analyzeStmt gd fuel m ls inv stmt with
      | none => none
      | some (ds1, ws1, ls1) =>
        match analyzeStmts gd fuel m ls1 inv rest with
        | none => none
        | some (ds2, ws2, ls2) => some (ds1 ++ ds2, ws1 ++ ws2, ls2)

def analyzeStmt (gd : GlobalDefs) (fuel : Nat) (m : MacroDef) (ls : LabelStack Unit)
    (inv : InvokeStack) (stmt : MacroStatement) :
    Option (List AnalysisError × List String × LabelStack Unit) :=
  match fuel with
  | 0 => none
  | fuel + 1 =>
    match stmt with
    | .labelDefinition _ => some ([], [], ls)
    | .instruction i => some (analyzeInstr gd m ls inv i, [], ls)
    | .invoke (.macroInvoke name args) =>
      let argDiags := args.foldr (fun a acc => analyzeInstr gd m ls inv a ++ acc) []
      let nf := if globalExistsP gd name isMacroD then []
        else [AnalysisError.definitionNotFound m "macro" name]
      match analyzeTargets gd fuel m ls (inv ++ [(m, name)]) name args (macrosNamed gd name) with
      | none => none
      | some (ds, ws, ls1) => some (argDiags ++ nf ++ ds, ws, ls1)
    | .invoke (.builtinTableSize r) | .invoke (.builtinTableStart r) =>
      let nf := if globalExistsP gd r isTableD then []
        else [AnalysisError.definitionNotFound m "table" r]
      some (nf ++ [.notYetSupported "__tablesize and __tableoffset"], [], ls)
    | .invoke (.builtinCodeSize r) | .invoke (.builtinCodeOffset r) =>
      let nf := if globalExistsP gd r isMacroD then []
        else [AnalysisError.definitionNotFound m "macro" r]
      let nys := if (lookupDefs gd r).any (fun d =>
          match d with
          | .macroDef mm => 0 < mm.args.length
          | _ => false) then
        [AnalysisError.notYetSupported "code introspection for macros with arguments"]
      else []
      some (nf ++ nys, [r], ls)
    | .invoke (.builtinFuncSig r) | .invoke (.builtinError r) =>
      let nf := if globalExistsP gd r isFuncOrErrorD then []
        else [AnalysisError.definitionNotFound m "solidity function / error" r]
      some (nf ++ [.notYetSupported "__FUNC_SIG and __ERROR"], [], ls)
    | .invoke (.builtinEventHash r) =>
      let nf := if globalExistsP gd r isEventD then []
        else [AnalysisError.definitionNotFound m "solidity event" r]
      some (nf ++ [.notYetSupported "__EVENT_HASH"], [], ls)

/-- The per-target loop of the `Invoke::Macro` arm: arity check then recurse,
for every `Macro` definition sharing the invoked name. -/
def analyzeTargets (gd : GlobalDefs) (fuel : Nat) (m : MacroDef) (ls : LabelStack Unit)
    (inv : InvokeStack) (name : String) (args : List Instruction)
    (targets : List MacroDef) :
    Option (List AnalysisError × List String × LabelStack Unit) :=
  match fuel with
  | 0 => none
  | fuel + 1 =>
    match targets with
    | [] => some ([], [], ls)
    | t :: ts =>
      let mism := if t.args.length ≠ args.length then
        [AnalysisError.macroArgumentCountMismatch m name args t]
      else []
      match analyzeMacro gd fuel t ls inv with
      | none => none
      | some (ds1, ws1, ls1) =>
        match analyzeTargets gd fuel m ls1 inv name args ts with
        | none => none
        | some (ds2, ws2, ls2) => some (mism ++ ds1 ++ ds2, ws1 ++ ws2, ls2)

end

/-- `analyze_entry_point`: resolve the entry point (it must be the first
definition under its name and a macro), report missing entry or entry
arguments, then run the macro analysis with empty stacks. -/
def analyzeEntryPoint (gd : GlobalDefs) (entryName : String) (fuel : Nat) :
    Option (List AnalysisError × List String) :=
  match (alookup gd entryName).bind List.head? with
  | some (.macroDef ep) =>
    let argErr := if ep.args.length ≠ 0 then [AnalysisError.entryPointHasArgs ep] else []
    match analyzeMacro gd fuel ep LabelStack.empty [] with
    | none => none
    | some (ds, ws, _) => some (argErr ++ ds, ws)
  | _ => some ([.entryPointNotFound entryName], [])

/-- `main.rs`: every include directive in the root emits
`NotYetSupported{intent: "Huff '#include'"}`. -/
def includeErrors (sections : List RootSection) : List AnalysisError :=
  sections.filterMap (fun s =>
    match s with
    | .includeSection _ => some (.notYetSupported "Huff \x27#include\x27")
    | _ => none)

/-- `main.rs`: the definitions of the root, includes filtered out. -/
def sectionDefs (sections : List RootSection) : List Definition :=
  sections.filterMap (fun s =>
    match s with
    | .definition d => some d
    | _ => none)

/-- The `NotYetSupported` intents of a diagnostic list. -/
def nysIntents (ds : List AnalysisError) : List String :=
  ds.filterMap (fun d =>
    match d with
    | .notYetSupported i => some i
    | _ => none)

/-! ## Constant evaluation: `compilation/src/lib.rs::evalute_constants` (sic),
iterating the unique definition mapping in order with a free-storage-pointer
counter starting at zero. -/

def evaluteConstantsFrom : List (String × Definition) → Nat → List (String × Nat)
  | [], _ => []
  | (name, .constant _ (.value v)) :: rest, fp => (name, v) :: evaluteConstantsFrom rest fp
  | (name, .constant _ .freeStoragePointer) :: rest, fp =>
    (name, fp) :: evaluteConstantsFrom rest (fp + 1)
  | _ :: rest, fp => evaluteConstantsFrom rest fp

def evaluteConstants (defs : List (String × Definition)) : List (String × Nat) :=
  evaluteConstantsFrom defs 0

/-- The number of free-storage-pointer constants in a definition list. -/
def fspCount (defs : List (String × Definition)) : Nat :=
  (defs.filter (fun d =>
    match d with
    | (_, .constant _ .freeStoragePointer) => true
    | _ => false)).length

/-! ## Compilation globals: `compilation/src/lib.rs::CompileGlobals`. -/

structure CompileGlobals where
  minimize : Bool
  allowPush0 : Bool
  defs : List (String × Definition)
  constants : List (String × Nat)
  deriving DecidableEq

/-- Modelled from the spec: the four-argument `CompileGlobals::new` applying
caller-supplied constant overrides, called from `main.rs`, is absent from the
sources under `src/` (the three-argument revision there takes no overrides).
Per the spec: "Constant override inputs replace the mapped value by name; an
override whose name does not resolve to a constant emits
`NoConstantToOverride`" — so a missing name leaves the mapping unchanged. -/
def overrideOne (constants : List (String × Nat)) (name : String) (v : Nat) :
    List (String × Nat) :=
  constants.map (fun p => if p.1 = name then (p.1, v) else p)

/-- Modelled from the spec: apply every override, in order. -/
def applyOverrides (constants : List (String × Nat)) (overrides : List (String × Nat)) :
    List (String × Nat) :=
  overrides.foldl (fun cs p => overrideOne cs p.1 p.2) constants

/-- Modelled from the spec: `CompileGlobals::new` with overrides, evaluating
the constants of the unique definition mapping then applying overrides. -/
def compileGlobalsNew (minimize allowPush0 : Bool) (defs : List (String × Definition))
    (overrides : List (String × Nat)) : CompileGlobals :=
  ⟨minimize, allowPush0, defs, applyOverrides (evaluteConstants defs) overrides⟩

/-! ## Expansion: `compilation/src/lib.rs::generate_for_entrypoint`,
`generate_for_macro`, `instruction_to_asm`. -/

structure IncludedMacro where
  name : String
  startId : Nat
  endId : Nat
  deriving DecidableEq, Repr

def IncludedMacro.sizeRef (im : IncludedMacro) : MarkRef :=
  ⟨RefType.delta im.startId im.endId, true, none⟩

def IncludedMacro.startRef (im : IncludedMacro) : MarkRef :=
  ⟨RefType.direct im.startId, true, none⟩

structure IncludedCodeTable where
  name : String
  referenced : Bool
  startId : Nat
  endId : Nat
  data : List Nat
  deriving DecidableEq, Repr

def IncludedCodeTable.sizeRef (t : IncludedCodeTable) : MarkRef :=
  ⟨RefType.delta t.startId t.endId, true, none⟩

def IncludedCodeTable.startRef (t : IncludedCodeTable) : MarkRef :=
  ⟨RefType.direct t.startId, true, none⟩

/-- Mutable expansion state: the `MarkTracker` counter, the label scope
stack, both data-dependency worklists, and the output assembly stream. -/
structure GenState where
  marks : Nat
  labels : LabelStack Nat
  includedMacros : List IncludedMacro
  includedTables : List IncludedCodeTable
  asm : List Asm
  deriving DecidableEq, Repr

/-- `instruction_to_asm`. The argument environment is keyed last-wins
(`BTreeMap::from_iter`), hence the reversed lookup. -/
def instructionToAsm (g : CompileGlobals) (args : List (String × Asm))
    (ls : LabelStack Nat) : Instruction → Option Asm
  | .op o => some (Asm.op o)
  | .variablePush v => some (u256ToAsm v g.allowPush0)
  | .labelReference name => (ls.get name).map Asm.mref
  | .constantReference name => (alookup g.constants name).map (fun v => u256ToAsm v g.allowPush0)
  | .macroArgReference name => alookup args.reverse name

/-- The first pass of `generate_for_macro`: mint a fresh mark for every label
definition of the body, in body order. -/
def mintLabels (body : List MacroStatement) (st : GenState) : GenState :=
  body.foldl (fun s stmt =>
    match stmt with
    | .labelDefinition name =>
      { s with labels := s.labels.push name s.marks, marks := s.marks + 1 }
    | _ => s) st

/-- First-match `referenced = true` update (`iter_mut().find(..)`). -/
def setTableReferenced : List IncludedCodeTable → String → List IncludedCodeTable
  | [], _ => []
  | t :: ts, r =>
    if t.name = r then { t with referenced := true } :: ts
    else t :: setTableReferenced ts r

mutual

/-- `generate_for_macro`: bind arguments, open a label scope, mint label
marks, emit every statement, close the scope. -/
def genMacro (g : CompileGlobals) (fuel : Nat) (current : MacroDef)
    (argValues : List Asm) (st : GenState) : Option GenState :=
  match fuel with
  | 0 => none
  | fuel + 1 =>
    let args := current.args.zip argValues
    let st1 := mintLabels current.body { st with labels := st.labels.enterContext }
    match genStmts g fuel current args st1 current.body with
    | none => none
    | some st2 => some { st2 with labels := st2.labels.leaveContext }

def genStmts (g : CompileGlobals) (fuel : Nat) (current : MacroDef)
    (args : List (String × Asm)) (st : GenState) (stmts : List MacroStatement) :
    Option GenState :=
  match fuel with
  | 0 => none
  | fuel + 1 =>
    match stmts with
    | [] => some st
    | stmt :: rest =>
      match genStmt g fuel current args st stmt with
      | none => none
      | some st1 => genStmts g fuel current args st1 rest

def genStmt (g : CompileGlobals) (fuel : Nat) (_current : MacroDef)
    (args : List (String × Asm)) (st : GenState) (stmt : MacroStatement) :
    Option GenState :=
  match fuel with
  | 0 => none
  | fuel + 1 =>
    match stmt with
    | .labelDefinition name =>
      match st.labels.get name with
      | none => none
      | some mk => some { st with asm := st.asm ++ [Asm.mark mk, Asm.op Opcode.JUMPDEST] }
    | .instruction i =>
      match instructionToAsm g args st.labels i with
      | none => none
      | some a => some { st with asm := st.asm ++ [a] }
    | .invoke (.macroInvoke name margs) =>
      match alookup g.defs name with
      | some (.macroDef target) =>
        match margs.mapM (instructionToAsm g args st.labels) with
        | none => none
        | some vals => genMacro g fuel target vals st
      | _ => none
    | .invoke (.builtinCodeSize r) =>
      match st.includedMacros.find? (fun im => im.name = r) with
      | some im => some { st with asm := st.asm ++ [Asm.ref im.sizeRef] }
      | none =>
        let im : IncludedMacro := ⟨r, st.marks, st.marks + 1⟩
        some { st with marks := st.marks + 2,
                       includedMacros := st.includedMacros ++ [im],
                       asm := st.asm ++ [Asm.ref im.sizeRef] }
    | .invoke (.builtinCodeOffset r) =>
      match st.includedMacros.find? (fun im => im.name = r) with
      | some im => some { st with asm := st.asm ++ [Asm.ref im.startRef] }
      | none =>
        let im : IncludedMacro := ⟨r, st.marks, st.marks + 1⟩
        some { st with marks := st.marks + 2,
                       includedMacros := st.includedMacros ++ [im],
                       asm := st.asm ++ [Asm.ref im.startRef] }
    | .invoke (.builtinTableStart r) =>
      match st.includedTables.find? (fun t => t.name = r) with
      | none => none
      | some t => some { st with includedTables := setTableReferenced st.includedTables r,
                                 asm := st.asm ++ [Asm.ref t.startRef] }
    | .invoke (.builtinTableSize r) =>
      match st.includedTables.find? (fun t => t.name = r) with
      | none => none
      | some t => some { st with includedTables := setTableReferenced st.includedTables r,
                                 asm := st.asm ++ [Asm.ref t.sizeRef] }
    | .invoke (.builtinFuncSig r) =>
      match alookup g.defs r with
      | some (.solFunction f) =>
        match computeSelectorBytes f.name f.args with
        | none => none
        | some sel =>
          some { st with asm := st.asm ++ [u256ToAsm (fromBe sel) g.allowPush0] }
      | _ => none
    | .invoke (.builtinEventHash _) => none
    | .invoke (.builtinError _) => none

end

/-- The code tables of the definition map, each given a fresh start/end mark
pair, in map iteration order (`generate_for_entrypoint`'s initialisation). -/
def mintTables (defs : List (String × Definition)) (counter : Nat) :
    List IncludedCodeTable × Nat :=
  match defs with
  | [] => ([], counter)
  | (_, .codeTable name data) :: rest =>
    let r := mintTables rest (counter + 2)
    (⟨name, false, counter, counter + 1, data⟩ :: r.1, r.2)
  | _ :: rest => mintTables rest counter

mutual

/-- `generate_for_entrypoint`, up to (but not including) the final
`globals.assemble` call: the produced assembly stream.  The external
assembler that turns a stream into bytes (used for the nested data sections)
is a parameter `assemble`. -/
def genEntrypointAsm (assemble : List Asm → List Nat) (g : CompileGlobals)
    (fuel : Nat) (entry : MacroDef) : Option (List Asm) :=
  match fuel with
  | 0 => none
  | fuel + 1 =>
    let tc := mintTables g.defs 2
    let st0 : GenState :=
      ⟨tc.2, LabelStack.empty, [⟨entry.name, 0, 1⟩], tc.1, [Asm.mark 0]⟩
    match genMacro g fuel entry [] st0 with
    | none => none
    | some st =>
      match drainMacros assemble g fuel (st.includedMacros.drop 1) with
      | none => none
      | some sectionAsm =>
        let tableAsm := (st.includedTables.filter (fun t => t.referenced)).foldr
          (fun t acc => [Asm.mark t.startId, Asm.data t.data, Asm.mark t.endId] ++ acc) []
        some (st.asm ++ sectionAsm ++ tableAsm ++ [Asm.mark 1])

/-- The included-macro worklist drain (already past the `skip(1)`): each
entry becomes `Mark(start), Data(assemble(recursive pipeline)), Mark(end)`. -/
def drainMacros (assemble : List Asm → List Nat) (g : CompileGlobals)
    (fuel : Nat) (pending : List IncludedMacro) : Option (List Asm) :=
  match fuel with
  | 0 => none
  | fuel + 1 =>
    match pending with
    | [] => some []
    | im :: rest =>
      match alookup g.defs im.name with
      | some (.macroDef sm) =>
        match genEntrypointAsm assemble g fuel sm with
        | none => none
        | some innerAsm =>
          match drainMacros assemble g fuel rest with
          | none => none
          | some restAsm =>
            some ([Asm.mark im.startId, Asm.data (assemble innerAsm), Asm.mark im.endId] ++ restAsm)
      | _ => none

end

/-! ## Default deployment wrapper:
`compilation/src/lib.rs::generate_default_constructor`. -/

def generateDefaultConstructor (runtime : List Nat) : List Asm :=
  if runtime.length = 0 then []
  else if runtime.length ≤ 32 then
    let codePush := u256AsPush (fromBe runtime)
    let len := runtime.length
    if len = 32 then
      [Asm.op codePush, Asm.op Opcode.RETURNDATASIZE, Asm.op Opcode.MSTORE,
       Asm.op Opcode.MSIZE, Asm.op Opcode.RETURNDATASIZE, Asm.op Opcode.RETURN]
    else
      [Asm.op codePush, Asm.op Opcode.RETURNDATASIZE, Asm.op Opcode.MSTORE,
       Asm.op (Opcode.push 1 [len]), Asm.op (Opcode.push 1 [32 - len]),
       Asm.op Opcode.RETURN]
  else
    [Asm.deltaRef 0 1, Asm.op Opcode.DUP1, Asm.mref 0, Asm.op Opcode.RETURNDATASIZE,
     Asm.op Opcode.CODECOPY, Asm.op Opcode.RETURNDATASIZE, Asm.op Opcode.RETURN,
     Asm.mark 0, Asm.data runtime, Asm.mark 1]

/-! ## Abstract mark resolution (spec §4.E).  The assembler is an external
collaborator; the facts we prove about references hold for every assembler
whose items occupy sizes given by a function assigning zero to marks. -/

/-- Byte offset of the first occurrence of `Asm.mark id` in a stream, for an
item-size assignment `sz`. -/
def offsetOfMark (sz : Asm → Nat) : List Asm → Nat → Option Nat
  | [], _ => none
  | a :: rest, id =>
    if a = Asm.mark id then some 0
    else (offsetOfMark sz rest id).map (fun o => sz a + o)

/-- Total byte size of a stream under an item-size assignment. -/
def streamSize (sz : Asm → Nat) (l : List Asm) : Nat :=
  (l.map sz).sum

/-! ## Canonical ABI type grammar (spec-side definition, from the spec's
words: "fixed uints as `uintN`, tuples as `(t1,t2,…)`, arrays as `T[N]` or
`T[]`"; used to state claim C1 against the source's `build_signature`). -/

mutual

def canonicalType : DynSolType → String
  | .address => "address"
  | .bool => "bool"
  | .int n => "int" ++ toString n
  | .uint n => "uint" ++ toString n
  | .fixedBytes n => "bytes" ++ toString n
  | .bytes => "bytes"
  | .string => "string"
  | .array t => canonicalType t ++ "[]"
  | .fixedArray t n => canonicalType t ++ "[" ++ toString n ++ "]"
  | .tuple ts => "(" ++ canonicalTypeList ts ++ ")"

def canonicalTypeList : List DynSolType → String
  | [] => ""
  | [t] => canonicalType t
  | t :: ts => canonicalType t ++ "," ++ canonicalTypeList ts

end

/-- The selector the claim (spec §8, selector round-trip) prescribes:
`keccak256("name(canonical(t1),…)")[0..4]`. -/
def claimedSelectorBytes (funcName : String) (args : List DynSolType) : List Nat :=
  (keccak256 (strBytes (funcName ++ "(" ++ String.intercalate "," (args.map canonicalType) ++ ")"))).take 4

/-- The rendering the source actually applies to a supported argument type:
`address` and `string` canonically, every `uintN` collapsed to `uint256`. -/
def collapsedCanonical (t : DynSolType) : String :=
  match t with
  | .uint _ => "uint256"
  | _ => canonicalType t

/-- Supported signature argument types: the source's `build_signature`
handles exactly `Address`, `Uint(_)` and `String`. -/
def supportedSigType (t : DynSolType) : Bool :=
  match t with
  | .address => true
  | .uint _ => true
  | .string => true
  | _ => false

/-- Every reported recursive-invocation chain closes a cycle: its final
invoked name equals the name of some caller macro occurring in the chain. -/
def chainsClosed (ds : List AnalysisError) : Prop :=
  ∀ chain, AnalysisError.recursiveMacroInvocation chain ∈ ds →
    ∃ pLast, chain.getLast? = some pLast ∧ ∃ p, p ∈ chain ∧ p.1.name = pLast.2

/-- The `NotYetSupported` intents the macro analysis can emit. -/
def nysBounded (ds : List AnalysisError) : Prop :=
  ∀ i, AnalysisError.notYetSupported i ∈ ds →
    i ∈ ["__tablesize and __tableoffset",
         "code introspection for macros with arguments",
         "__FUNC_SIG and __ERROR",
         "__EVENT_HASH"]

/-- Invariant of the expansion state during `generate_for_entrypoint`: the
mark counter stays past the reserved entry marks 0/1, every label mark and
code-table mark is fresh (≥ 2), the included-macro worklist keeps the
pre-registered entry `⟨entryName, 0, 1⟩` at its head with every later entry
fresh and differently named, and the assembly stream is `Mark 0` followed by
items whose marks are all ≥ 2. -/
def genInv (entryName : String) (st : GenState) : Prop :=
  2 ≤ st.marks ∧
  (∀ p ∈ st.labels.stack, 2 ≤ p.2) ∧
  (∃ tl, st.includedMacros = ⟨entryName, 0, 1⟩ :: tl ∧
    ∀ im ∈ tl, 2 ≤ im.startId ∧ 2 ≤ im.endId ∧ im.name ≠ entryName) ∧
  (∀ t ∈ st.includedTables, 2 ≤ t.startId ∧ 2 ≤ t.endId) ∧
  (∃ rest, st.asm = Asm.mark 0 :: rest ∧ ∀ id, Asm.mark id ∈ rest → 2 ≤ id)

/-- Concrete single-macro program: `MAIN` takes its own `__codesize` and
stops. -/
def mainC10 : MacroDef :=
  ⟨"MAIN", [], some (0, 0),
    [MacroStatement.invoke (Invoke.builtinCodeSize "MAIN"),
     MacroStatement.instruction (Instruction.op Opcode.STOP)]⟩

def gC10 : CompileGlobals :=
  ⟨false, false, [("MAIN", Definition.macroDef mainC10)], []⟩

/-- The assembly stream `generate_for_entrypoint` produces for `mainC10`. -/
def outC10 : List Asm :=
  [Asm.mark 0, Asm.ref ⟨RefType.delta 0 1, true, none⟩, Asm.op Opcode.STOP, Asm.mark 1]

/-- A sample item-size assignment for resolution (marks occupy no bytes). -/
def szC10 : Asm → Nat
  | Asm.mark _ => 0
  | Asm.op _ => 1
  | Asm.ref _ => 2
  | Asm.data bs => bs.length

end Huff2

namespace Huff2

/-! # Support lemmas -/

/-! ## Byte-length and encoding lemmas -/

theorem byteLenAux_eq_slow (fuel v : Nat) : byteLenAux fuel v = byteLenSlow v := by
  induction fuel generalizing v with
  | zero => rfl
  | succ fuel ih =>
    by_cases hv : v = 0
    · subst hv
      simp [byteLenAux, byteLenSlow]
    · conv_rhs => rw [byteLenSlow]
      simp [byteLenAux, hv, ih]

theorem byteLen_eq_slow (v : Nat) : byteLen v = byteLenSlow v :=
  byteLenAux_eq_slow 33 v

theorem byteLen_zero : byteLen 0 = 0 := by
  rw [byteLen_eq_slow]
  unfold byteLenSlow; simp

theorem byteLen_pos_eq (v : Nat) (h : v ≠ 0) : byteLen v = byteLen (v / 256) + 1 := by
  rw [byteLen_eq_slow, byteLen_eq_slow]
  conv_lhs => unfold byteLenSlow
  simp [h]

/-- `byteLen v ≤ k` exactly when `v` fits in `k` bytes. -/
theorem byteLen_le_iff (v k : Nat) : byteLen v ≤ k ↔ v < 256 ^ k := by
  induction k generalizing v with
  | zero =>
    constructor
    · intro h
      by_contra hv
      have hv' : v ≠ 0 := by
        intro h0; subst h0; simp [pow_zero] at hv
      rw [byteLen_pos_eq v hv'] at h
      omega
    · intro h
      have : v = 0 := by simpa [pow_zero] using Nat.lt_one_iff.mp (by simpa [pow_zero] using h)
      simp [this, byteLen_zero]
  | succ k ih =>
    have hpow : (256 : Nat) ^ (k + 1) = 256 * 256 ^ k := by ring
    constructor
    · intro h
      by_cases hv : v = 0
      · subst hv; exact Nat.pos_pow_of_pos _ (by omega)
      · rw [byteLen_pos_eq v hv] at h
        have h2 : byteLen (v / 256) ≤ k := by omega
        have h3 : v / 256 < 256 ^ k := (ih (v / 256)).mp h2
        have h4 : v / 256 + 1 ≤ 256 ^ k := h3
        have h5 : v < 256 * (v / 256) + 256 := by omega
        have h6 : 256 * (v / 256 + 1) ≤ 256 * 256 ^ k := Nat.mul_le_mul_left 256 h4
        rw [hpow]
        omega
    · intro h
      by_cases hv : v = 0
      · simp [hv, byteLen_zero]
      · rw [byteLen_pos_eq v hv]
        rw [hpow] at h
        have hdiv : v / 256 < 256 ^ k := Nat.div_lt_of_lt_mul (by omega)
        have := (ih (v / 256)).mpr hdiv
        omega

theorem byteLen_bound (v : Nat) : v < 256 ^ byteLen v :=
  (byteLen_le_iff v (byteLen v)).mp (Nat.le_refl _)

theorem byteLen_minimal (v k : Nat) (h : v < 256 ^ k) : byteLen v ≤ k :=
  (byteLen_le_iff v k).mpr h

theorem byteLen_eq_zero_iff (v : Nat) : byteLen v = 0 ↔ v = 0 := by
  constructor
  · intro h
    by_contra hv
    rw [byteLen_pos_eq v hv] at h
    omega
  · intro h; simp [h, byteLen_zero]

/-- Decoding a `w`-byte big-endian encoding gives back the value whenever the
value fits (the push immediate genuinely carries the value). -/
theorem fromBe_beBytes (w v : Nat) (h : v < 256 ^ w) : fromBe (beBytes w v) = v := by
  induction w generalizing v with
  | zero =>
    have : v = 0 := by simpa using Nat.lt_one_iff.mp (by simpa using h)
    simp [this, beBytes, fromBe]
  | succ w ih =>
    have hdiv : v / 256 < 256 ^ w := by
      have h2 : 256 ^ (w + 1) = 256 * 256 ^ w := by ring
      rw [h2] at h
      exact Nat.div_lt_of_lt_mul (by omega)
    have := ih (v / 256) hdiv
    simp only [beBytes, fromBe, List.foldl_append, List.foldl_cons, List.foldl_nil]
    simp only [fromBe] at this
    rw [this]
    omega

theorem fromBe_append_one (xs : List Nat) (b : Nat) :
    fromBe (xs ++ [b]) = 256 * fromBe xs + b := by
  simp only [fromBe, List.foldl_append, List.foldl_cons, List.foldl_nil]
  omega

/-- The value of a byte string is bounded by its length. -/
theorem fromBe_lt (R : List Nat) (h : ∀ b ∈ R, b < 256) :
    fromBe R < 256 ^ R.length := by
  induction R using List.reverseRecOn with
  | nil => simp [fromBe]
  | append_singleton xs b ih =>
    have hb : b < 256 := h b (by simp)
    have hxs := ih (fun c hc => h c (by simp [hc]))
    rw [fromBe_append_one]
    simp only [List.length_append, List.length_singleton]
    have : 256 ^ (xs.length + 1) = 256 * 256 ^ xs.length := by ring
    rw [this]
    omega

/-- Big-endian encoding at the exact length round-trips on genuine byte
strings. -/
theorem beBytes_fromBe (R : List Nat) (h : ∀ b ∈ R, b < 256) :
    beBytes R.length (fromBe R) = R := by
  induction R using List.reverseRecOn with
  | nil => simp [beBytes, fromBe]
  | append_singleton xs b ih =>
    have hb : b < 256 := h b (by simp)
    have hxs := ih (fun c hc => h c (by simp [hc]))
    rw [fromBe_append_one]
    simp only [List.length_append, List.length_singleton]
    show beBytes (xs.length + 1) (256 * fromBe xs + b) = xs ++ [b]
    simp only [beBytes]
    have hdiv : (256 * fromBe xs + b) / 256 = fromBe xs := by omega
    have hmod : (256 * fromBe xs + b) % 256 = b := by omega
    rw [hdiv, hmod, hxs]

/-- A nonzero leading byte forces the full magnitude. -/
theorem le_fromBe_cons (b : Nat) (bs : List Nat) (hb : b ≠ 0) :
    256 ^ bs.length ≤ fromBe (b :: bs) := by
  induction bs using List.reverseRecOn with
  | nil =>
    simp only [fromBe, List.foldl_cons, List.foldl_nil, List.length_nil, pow_zero]
    omega
  | append_singleton xs c ih =>
    have hcons : b :: (xs ++ [c]) = (b :: xs) ++ [c] := by simp
    rw [hcons, fromBe_append_one]
    simp only [List.length_append, List.length_singleton]
    have hpow : (256 : Nat) ^ (xs.length + 1) = 256 * 256 ^ xs.length := by ring
    rw [hpow]
    omega

/-- A byte string with a nonzero leading byte has byte length equal to its
list length. -/
theorem byteLen_fromBe_of_head_ne (b : Nat) (bs : List Nat)
    (hb : b ≠ 0) (h : ∀ c ∈ b :: bs, c < 256) :
    byteLen (fromBe (b :: bs)) = (b :: bs).length := by
  have hupper := fromBe_lt (b :: bs) h
  have hle : byteLen (fromBe (b :: bs)) ≤ (b :: bs).length := byteLen_minimal _ _ hupper
  have hlower : 256 ^ bs.length ≤ fromBe (b :: bs) := le_fromBe_cons b bs hb
  have hge : (b :: bs).length ≤ byteLen (fromBe (b :: bs)) := by
    by_contra hcon
    have h2 : byteLen (fromBe (b :: bs)) ≤ bs.length := by
      simp only [List.length_cons] at hcon
      omega
    have := (byteLen_le_iff _ _).mp h2
    omega
  omega


/-! # Claim C9 -/

/-- C9: For every `VariablePush` or evaluated constant with value `v`,
expansion emits the minimum-width push instruction carrying `v` (width
`byteLen v`, immediate decoding back to `v`, and no strictly smaller width
fits); when `v` is zero it emits `PUSH0` if and only if the configured EVM
version allows `PUSH0` (shanghai, cancun, eof), and otherwise emits
`PUSH1 0x00`. -/
theorem claim_C9 (g : CompileGlobals) (argEnv : List (String × Asm)) (ls : LabelStack Nat)
    (cname : String) (v : Nat) (ver : EvmVersion) :
    instructionToAsm g argEnv ls (Instruction.variablePush v) = some (u256ToAsm v g.allowPush0) ∧
    (alookup g.constants cname = some v →
      instructionToAsm g argEnv ls (Instruction.constantReference cname) =
        some (u256ToAsm v g.allowPush0)) ∧
    (v ≠ 0 →
      u256ToAsm v ver.allowsPush0 =
        Asm.op (Opcode.push (byteLen v) (beBytes (byteLen v) v)) ∧
      fromBe (beBytes (byteLen v) v) = v ∧
      (∀ k, v < 256 ^ k → byteLen v ≤ k)) ∧
    (v = 0 →
      u256ToAsm v ver.allowsPush0 =
        Asm.op (if ver.allowsPush0 then Opcode.PUSH0 else Opcode.push 1 [0])) ∧
    (ver.allowsPush0 = true ↔ ver = .shanghai ∨ ver = .cancun ∨ ver = .eof) := by
  refine ⟨rfl, fun h => ?_, fun hv => ?_, fun hv => ?_, ?_⟩
  · simp [instructionToAsm, h]
  · have hbl : byteLen v ≠ 0 := fun h0 => hv ((byteLen_eq_zero_iff v).mp h0)
    have hmax : max 1 (byteLen v) = byteLen v := by omega
    refine ⟨?_, fromBe_beBytes _ _ (byteLen_bound v), fun k hk => byteLen_minimal v k hk⟩
    simp only [u256ToAsm, u256AsPush, hmax]
    have : (byteLen v = 0 && ver.allowsPush0) = false := by
      simp [hbl]
    rw [this]
    simp
  · subst hv
    cases hver : ver.allowsPush0 <;>
      simp [u256ToAsm, u256AsPush, byteLen_zero, beBytes, hver]
  · cases ver <;> simp [EvmVersion.allowsPush0]

/-- C9 witness: concrete instances — value `0x1234` pushes as `PUSH2 [0x12,
0x34]` under paris, zero pushes `PUSH0` under shanghai and `PUSH1 0x00` under
paris. -/
theorem claim_C9_witness :
    instructionToAsm ⟨true, false, [], [("K", 4660)]⟩ [] LabelStack.empty
        (Instruction.constantReference "K") =
      some (Asm.op (Opcode.push 2 [18, 52])) ∧
    u256ToAsm 4660 EvmVersion.paris.allowsPush0 =
      Asm.op (Opcode.push 2 [18, 52]) ∧
    u256ToAsm 0 EvmVersion.shanghai.allowsPush0 = Asm.op Opcode.PUSH0 ∧
    u256ToAsm 0 EvmVersion.paris.allowsPush0 = Asm.op (Opcode.push 1 [0]) := by
  have h1 := (claim_C9 ⟨true, false, [], [("K", 4660)]⟩ [] LabelStack.empty "K" 4660
    EvmVersion.paris).2.1 (by decide)
  have h2 := ((claim_C9 ⟨true, false, [], [("K", 4660)]⟩ [] LabelStack.empty "K" 4660
    EvmVersion.paris).2.2.1 (by decide)).1
  have h3 := (claim_C9 ⟨true, false, [], [("K", 4660)]⟩ [] LabelStack.empty "K" 0
    EvmVersion.shanghai).2.2.2.1 rfl
  have h4 := (claim_C9 ⟨true, false, [], [("K", 4660)]⟩ [] LabelStack.empty "K" 0
    EvmVersion.paris).2.2.2.1 rfl
  refine ⟨?_, ?_, ?_, ?_⟩
  · rw [h1]
    decide
  · rw [h2]
    decide
  · rw [h3]
    decide
  · rw [h4]
    decide

/-! # Claim C8 -/

/-- C8: the default deployment wrapper on a runtime byte sequence `R` of
length `n` emits: nothing when `n = 0`; for `1 ≤ n ≤ 32` a push carrying `R`
(its immediate decodes to `R`'s big-endian value, and is exactly `R` whenever
`R`'s first byte is nonzero), `RETURNDATASIZE`, `MSTORE`, then a return of
the `n`-byte window — offset `32 − n` and size `n` pushed when `n < 32`,
`MSIZE`/`RETURNDATASIZE` when `n = 32`; for `n > 32` the push-`n`-delta,
`DUP1`, push-start, `RETURNDATASIZE`, `CODECOPY`, `RETURNDATASIZE`, `RETURN`
pattern followed by `R` as a data block between the start and end marks. -/
theorem claim_C8 (R : List Nat) (hbytes : ∀ b ∈ R, b < 256) :
    (R.length = 0 → generateDefaultConstructor R = []) ∧
    (1 ≤ R.length → R.length < 32 →
      generateDefaultConstructor R =
        [Asm.op (u256AsPush (fromBe R)), Asm.op Opcode.RETURNDATASIZE,
         Asm.op Opcode.MSTORE, Asm.op (Opcode.push 1 [R.length]),
         Asm.op (Opcode.push 1 [32 - R.length]), Asm.op Opcode.RETURN]) ∧
    (R.length = 32 →
      generateDefaultConstructor R =
        [Asm.op (u256AsPush (fromBe R)), Asm.op Opcode.RETURNDATASIZE,
         Asm.op Opcode.MSTORE, Asm.op Opcode.MSIZE,
         Asm.op Opcode.RETURNDATASIZE, Asm.op Opcode.RETURN]) ∧
    (1 ≤ R.length → R.length ≤ 32 →
      fromBe (beBytes (max 1 (byteLen (fromBe R))) (fromBe R)) = fromBe R ∧
      (∀ b bs, R = b :: bs → b ≠ 0 → u256AsPush (fromBe R) = Opcode.push R.length R)) ∧
    (32 < R.length →
      generateDefaultConstructor R =
        [Asm.deltaRef 0 1, Asm.op Opcode.DUP1, Asm.mref 0,
         Asm.op Opcode.RETURNDATASIZE, Asm.op Opcode.CODECOPY,
         Asm.op Opcode.RETURNDATASIZE, Asm.op Opcode.RETURN,
         Asm.mark 0, Asm.data R, Asm.mark 1]) := by
  refine ⟨fun h0 => ?_, fun h1 h2 => ?_, fun h32 => ?_, fun h1 h2 => ⟨?_, ?_⟩, fun hgt => ?_⟩
  · simp [generateDefaultConstructor, h0]
  · rw [generateDefaultConstructor]
    have hne : ¬ R.length = 0 := by omega
    have hle : R.length ≤ 32 := by omega
    have hne32 : ¬ R.length = 32 := by omega
    simp [hne, hle, hne32]
  · rw [generateDefaultConstructor]
    simp [h32]
  · have hfit : fromBe R < 256 ^ max 1 (byteLen (fromBe R)) := by
      have := byteLen_bound (fromBe R)
      calc fromBe R < 256 ^ byteLen (fromBe R) := this
        _ ≤ 256 ^ max 1 (byteLen (fromBe R)) :=
          Nat.pow_le_pow_right (by omega) (by omega)
    exact fromBe_beBytes _ _ hfit
  · intro b bs hR hb
    subst hR
    have hlen := byteLen_fromBe_of_head_ne b bs hb hbytes
    have hmax : max 1 (byteLen (fromBe (b :: bs))) = (b :: bs).length := by
      rw [hlen]; simp
    rw [u256AsPush, hmax, beBytes_fromBe _ hbytes]
  · rw [generateDefaultConstructor]
    have hne : ¬ R.length = 0 := by omega
    have hnle : ¬ R.length ≤ 32 := by omega
    simp [hne, hnle]

/-- C8 witness: the repository's own scenario 7 — the 4-byte runtime
`60016000f3` prefix `[0x60, 0x01, 0x60, 0x00, 0xf3]` (5 bytes) wraps into
`PUSH5 R, RETURNDATASIZE, MSTORE, PUSH1 5, PUSH1 27, RETURN`, and a 33-byte
runtime takes the `CODECOPY` pattern. -/
theorem claim_C8_witness :
    generateDefaultConstructor [0x60, 0x01, 0x60, 0x00, 0xf3] =
      [Asm.op (Opcode.push 5 [0x60, 0x01, 0x60, 0x00, 0xf3]),
       Asm.op Opcode.RETURNDATASIZE, Asm.op Opcode.MSTORE,
       Asm.op (Opcode.push 1 [5]), Asm.op (Opcode.push 1 [27]),
       Asm.op Opcode.RETURN] ∧
    generateDefaultConstructor (List.replicate 33 7) =
      [Asm.deltaRef 0 1, Asm.op Opcode.DUP1, Asm.mref 0,
       Asm.op Opcode.RETURNDATASIZE, Asm.op Opcode.CODECOPY,
       Asm.op Opcode.RETURNDATASIZE, Asm.op Opcode.RETURN,
       Asm.mark 0, Asm.data (List.replicate 33 7), Asm.mark 1] := by
  constructor
  · have hsmall := (claim_C8 [0x60, 0x01, 0x60, 0x00, 0xf3] (by decide)).2.1
      (by decide) (by decide)
    have hpush := ((claim_C8 [0x60, 0x01, 0x60, 0x00, 0xf3] (by decide)).2.2.2.1
      (by decide) (by decide)).2 0x60 [0x01, 0x60, 0x00, 0xf3] rfl (by decide)
    rw [hsmall, hpush]
    decide
  · exact (claim_C8 (List.replicate 33 7) (by decide)).2.2.2.2 (by decide)


/-! ## Grouping and lookup lemmas -/

theorem alookup_eq_none_of_not_mem {α : Type} (m : List (String × α)) (key : String)
    (h : ∀ p ∈ m, p.1 ≠ key) : alookup m key = none := by
  induction m with
  | nil => rfl
  | cons p rest ih =>
    simp only [alookup]
    rw [if_neg (h p (by simp))]
    exact ih (fun q hq => h q (by simp [hq]))

theorem alookup_insertGrouped_ne {α : Type} (k : String) (v : α)
    (m : List (String × List α)) (key : String) (hne : key ≠ k) :
    alookup (insertGrouped k v m) key = alookup m key := by
  have hne2 : ¬ k = key := fun h => hne h.symm
  induction m with
  | nil => simp [insertGrouped, alookup, hne2]
  | cons p rest ih =>
    obtain ⟨k1, vs⟩ := p
    simp only [insertGrouped]
    split_ifs with h1
    · subst h1
      simp [alookup, hne2]
    · by_cases h3 : k1 = key
      · simp [alookup, h3]
      · simp [alookup, h3, ih]

theorem alookup_insertGrouped_self {α : Type} (k : String) (v : α)
    (m : List (String × List α)) :
    alookup (insertGrouped k v m) k = some ((alookup m k).getD [] ++ [v]) := by
  induction m with
  | nil => simp [insertGrouped, alookup]
  | cons p rest ih =>
    obtain ⟨k1, vs⟩ := p
    simp only [insertGrouped]
    split_ifs with h1
    · subst h1
      simp [alookup]
    · have h4 : ¬ (k1 = k) := fun h => h1 h.symm
      simp [alookup, h4, ih]

theorem insertGrouped_keys {α : Type} (k : String) (v : α)
    (m : List (String × List α)) :
    (insertGrouped k v m).map Prod.fst =
      (if k ∈ m.map Prod.fst then m.map Prod.fst else m.map Prod.fst ++ [k]) := by
  induction m with
  | nil => simp [insertGrouped]
  | cons p rest ih =>
    obtain ⟨k1, vs⟩ := p
    by_cases h1 : k = k1
    · subst h1
      rw [show insertGrouped k v ((k, vs) :: rest) = (k, vs ++ [v]) :: rest from by
        simp [insertGrouped]]
      rw [if_pos (by simp)]
      simp
    · rw [show insertGrouped k v ((k1, vs) :: rest) = (k1, vs) :: insertGrouped k v rest from by
        simp [insertGrouped, h1]]
      have hmem : (k ∈ ((k1, vs) :: rest).map Prod.fst) ↔ (k ∈ rest.map Prod.fst) := by
        simp [h1]
      by_cases h2 : k ∈ rest.map Prod.fst
      · rw [if_pos (hmem.mpr h2)]
        simp only [List.map_cons, ih, if_pos h2]
      · rw [if_neg (fun hcon => h2 (hmem.mp hcon))]
        simp only [List.map_cons, ih, if_neg h2]
        rfl

theorem insertGrouped_nodupKeys {α : Type} (k : String) (v : α)
    (m : List (String × List α)) (h : (m.map Prod.fst).Nodup) :
    ((insertGrouped k v m).map Prod.fst).Nodup := by
  rw [insertGrouped_keys]
  split_ifs with h1
  · exact h
  · rw [List.nodup_append]
    exact ⟨h, List.nodup_singleton k, by simpa using h1⟩

theorem buildIdentMapBy_go {α : Type} (f : α → String) (nodes : List α) :
    ∀ (acc : List (String × List α)), (acc.map Prod.fst).Nodup →
    ∀ key,
      ((nodes.foldl (fun m n => insertGrouped (f n) n m) acc).map Prod.fst).Nodup ∧
      alookup (nodes.foldl (fun m n => insertGrouped (f n) n m) acc) key =
        (if (nodes.filter (fun n => f n = key)).isEmpty then alookup acc key
         else some ((alookup acc key).getD [] ++ nodes.filter (fun n => f n = key))) := by
  induction nodes with
  | nil =>
    intro acc hacc key
    exact ⟨hacc, by simp⟩
  | cons n rest ih =>
    intro acc hacc key
    have hacc1 := insertGrouped_nodupKeys (f n) n acc hacc
    have hrec := ih (insertGrouped (f n) n acc) hacc1 key
    refine ⟨hrec.1, ?_⟩
    simp only [List.foldl_cons]
    rw [hrec.2]
    by_cases hk : f n = key
    · rw [hk, alookup_insertGrouped_self key n acc]
      have hfil : (n :: rest).filter (fun x => f x = key) =
          n :: rest.filter (fun x => f x = key) := by
        simp [List.filter_cons, hk]
      rw [hfil]
      by_cases hrest : (rest.filter (fun x => f x = key)).isEmpty
      · rw [List.isEmpty_iff.mp hrest]
        simp
      · simp [hrest]
    · rw [alookup_insertGrouped_ne (f n) n acc key (fun hcon => hk hcon.symm)]
      have hfil : (n :: rest).filter (fun x => f x = key) =
          rest.filter (fun x => f x = key) := by
        simp [List.filter_cons, hk]
      rw [hfil]

/-- `build_ident_map` lookup characterisation: each name maps to exactly the
nodes bearing it, in insertion order. -/
theorem buildIdentMapBy_alookup {α : Type} (f : α → String) (nodes : List α) (key : String) :
    alookup (buildIdentMapBy f nodes) key =
      (if (nodes.filter (fun n => f n = key)).isEmpty then none
       else some (nodes.filter (fun n => f n = key))) := by
  have h := (buildIdentMapBy_go f nodes [] (by simp) key).2
  rw [buildIdentMapBy]
  rw [h]
  simp [alookup]

theorem buildIdentMapBy_nodupKeys {α : Type} (f : α → String) (nodes : List α) :
    ((buildIdentMapBy f nodes).map Prod.fst).Nodup :=
  (buildIdentMapBy_go f nodes [] (by simp) "").1

/-! ## Duplicate-definition analysis lemmas -/

theorem dups_not_mem (m : List (String × List Definition)) (key : String)
    (h : ∀ p ∈ m, p.1 ≠ key) :
    alookup (analyzeGlobalForDups m).2 key = none ∧
    (∀ g, AnalysisError.definitionNameCollision g key ∉ (analyzeGlobalForDups m).1) := by
  induction m with
  | nil => exact ⟨rfl, by simp [analyzeGlobalForDups]⟩
  | cons p rest ih =>
    obtain ⟨k, ds⟩ := p
    have hk : k ≠ key := h (k, ds) (by simp)
    have hrest := ih (fun q hq => h q (by simp [hq]))
    match ds with
    | [] =>
      simpa [analyzeGlobalForDups] using hrest
    | [d] =>
      refine ⟨?_, ?_⟩
      · simp only [analyzeGlobalForDups, alookup]
        rw [if_neg hk]
        exact hrest.1
      · intro g hg
        simp only [analyzeGlobalForDups] at hg
        exact hrest.2 g hg
    | d1 :: d2 :: ds' =>
      refine ⟨?_, ?_⟩
      · simp only [analyzeGlobalForDups]
        exact hrest.1
      · intro g hg
        simp only [analyzeGlobalForDups, List.mem_cons] at hg
        rcases hg with hg | hg
        · exact hk (by injection hg with _ h2; exact h2.symm) |>.elim
        · exact hrest.2 g hg

theorem dups_mem (m : List (String × List Definition)) (key : String) (g : List Definition)
    (hs : (m.map Prod.fst).Nodup) (hl : alookup m key = some g) :
    (g.length = 1 → alookup (analyzeGlobalForDups m).2 key = g.head?) ∧
    (2 ≤ g.length →
      ((analyzeGlobalForDups m).1.count (AnalysisError.definitionNameCollision g key) = 1 ∧
       (∀ g', AnalysisError.definitionNameCollision g' key ∈ (analyzeGlobalForDups m).1 → g' = g) ∧
       alookup (analyzeGlobalForDups m).2 key = none)) ∧
    (g = [] → alookup (analyzeGlobalForDups m).2 key = none) := by
  induction m with
  | nil => simp [alookup] at hl
  | cons p rest ih =>
    obtain ⟨k, ds⟩ := p
    have hmap : ((k, ds) :: rest).map Prod.fst = k :: rest.map Prod.fst := rfl
    rw [hmap, List.nodup_cons] at hs
    obtain ⟨hhead, htail⟩ := hs
    by_cases hk : k = key
    · subst hk
      simp only [alookup, if_pos rfl] at hl
      injection hl with hl
      subst hl
      have habsent : ∀ p ∈ rest, p.1 ≠ k := by
        intro q hq hcon
        exact hhead (List.mem_map.mpr ⟨q, hq, hcon⟩)
      have hrest := dups_not_mem rest k habsent
      match ds with
      | [] =>
        refine ⟨by intro h; simp at h, by intro h; simp at h, fun _ => ?_⟩
        simpa [analyzeGlobalForDups] using hrest.1
      | [d] =>
        refine ⟨fun _ => ?_, by intro h; simp at h, by intro h; simp at h⟩
        simp [analyzeGlobalForDups, alookup]
      | d1 :: d2 :: ds' =>
        refine ⟨by intro h; simp at h, fun _ => ⟨?_, ?_, ?_⟩, by intro h; simp at h⟩
        · simp only [analyzeGlobalForDups, List.count_cons]
          rw [List.count_eq_zero.mpr (hrest.2 _)]
          simp
        · intro g' hg'
          simp only [analyzeGlobalForDups, List.mem_cons] at hg'
          rcases hg' with hg' | hg'
          · simp_all
          · exact absurd hg' (hrest.2 g')
        · simp only [analyzeGlobalForDups]
          exact hrest.1
    · have hl' : alookup rest key = some g := by
        simpa [alookup, hk] using hl
      have hrec := ih htail hl'
      match ds with
      | [] =>
        simpa [analyzeGlobalForDups] using hrec
      | [d] =>
        refine ⟨fun h1 => ?_, fun h2 => ?_, fun h0 => ?_⟩
        · simp only [analyzeGlobalForDups, alookup]
          rw [if_neg hk]
          exact hrec.1 h1
        · refine ⟨?_, ?_, ?_⟩
          · simpa [analyzeGlobalForDups] using (hrec.2.1 h2).1
          · intro g' hg'
            simp only [analyzeGlobalForDups] at hg'
            exact (hrec.2.1 h2).2.1 g' hg'
          · simp only [analyzeGlobalForDups, alookup]
            rw [if_neg hk]
            exact (hrec.2.1 h2).2.2
        · simp only [analyzeGlobalForDups, alookup]
          rw [if_neg hk]
          exact hrec.2.2 h0
      | d1 :: d2 :: ds' =>
        refine ⟨fun h1 => ?_, fun h2 => ?_, fun h0 => ?_⟩
        · simp only [analyzeGlobalForDups]
          exact hrec.1 h1
        · refine ⟨?_, ?_, ?_⟩
          · simp only [analyzeGlobalForDups, List.count_cons]
            have hne : ¬ (AnalysisError.definitionNameCollision (d1 :: d2 :: ds') k =
                AnalysisError.definitionNameCollision g key) := by
              intro hcon
              injection hcon with _ h2'
              exact hk h2'
            rw [(hrec.2.1 h2).1]
            simp [hne]
          · intro g' hg'
            simp only [analyzeGlobalForDups, List.mem_cons] at hg'
            rcases hg' with hg' | hg'
            · injection hg' with _ h2'
              exact absurd h2'.symm hk
            · exact (hrec.2.1 h2).2.1 g' hg'
          · simp only [analyzeGlobalForDups]
            exact (hrec.2.1 h2).2.2
        · simp only [analyzeGlobalForDups]
          exact hrec.2.2 h0


/-! # Claim C6 -/

/-- C6: grouping top-level definitions by name, a name carried by exactly one
definition is mapped to it by the unique mapping; a name carried by two or
more definitions produces exactly one `DefinitionNameCollision` listing all
its definitions in insertion order, and is absent from the mapping. -/
theorem claim_C6 (defs : List Definition) (name : String) :
    ((defs.filter (fun d => d.ident = name)).length = 1 →
      alookup (analyzeGlobalForDups (buildIdentMapBy Definition.ident defs)).2 name =
        (defs.filter (fun d => d.ident = name)).head?) ∧
    (2 ≤ (defs.filter (fun d => d.ident = name)).length →
      ((analyzeGlobalForDups (buildIdentMapBy Definition.ident defs)).1.count
          (AnalysisError.definitionNameCollision (defs.filter (fun d => d.ident = name)) name) = 1 ∧
       (∀ g', AnalysisError.definitionNameCollision g' name ∈
          (analyzeGlobalForDups (buildIdentMapBy Definition.ident defs)).1 → g' =
            defs.filter (fun d => d.ident = name)) ∧
       alookup (analyzeGlobalForDups (buildIdentMapBy Definition.ident defs)).2 name = none)) := by
  have hpw := buildIdentMapBy_nodupKeys Definition.ident defs
  have hlk := buildIdentMapBy_alookup Definition.ident defs name
  by_cases hempty : (defs.filter (fun d => d.ident = name)).isEmpty
  · rw [List.isEmpty_iff] at hempty
    constructor
    · intro h1
      rw [hempty] at h1
      simp at h1
    · intro h2
      rw [hempty] at h2
      simp at h2
  · rw [if_neg hempty] at hlk
    have h := dups_mem (buildIdentMapBy Definition.ident defs) name
      (defs.filter (fun d => d.ident = name)) hpw hlk
    exact ⟨h.1, h.2.1⟩

/-- C6 witness: two macros named `A` collide (one diagnostic, listed in
order, `A` unmapped) while the unique `B` is mapped. -/
theorem claim_C6_witness :
    alookup (analyzeGlobalForDups (buildIdentMapBy Definition.ident
        [Definition.constant "A" (ConstExpr.value 1),
         Definition.constant "B" (ConstExpr.value 2),
         Definition.constant "A" (ConstExpr.value 3)])).2 "B" =
      some (Definition.constant "B" (ConstExpr.value 2)) ∧
    (analyzeGlobalForDups (buildIdentMapBy Definition.ident
        [Definition.constant "A" (ConstExpr.value 1),
         Definition.constant "B" (ConstExpr.value 2),
         Definition.constant "A" (ConstExpr.value 3)])).1.count
      (AnalysisError.definitionNameCollision
        [Definition.constant "A" (ConstExpr.value 1),
         Definition.constant "A" (ConstExpr.value 3)] "A") = 1 ∧
    alookup (analyzeGlobalForDups (buildIdentMapBy Definition.ident
        [Definition.constant "A" (ConstExpr.value 1),
         Definition.constant "B" (ConstExpr.value 2),
         Definition.constant "A" (ConstExpr.value 3)])).2 "A" = none := by
  refine ⟨?_, ?_, ?_⟩
  · have h := (claim_C6
      [Definition.constant "A" (ConstExpr.value 1),
       Definition.constant "B" (ConstExpr.value 2),
       Definition.constant "A" (ConstExpr.value 3)] "B").1 (by decide)
    rw [h]
    decide
  · have h := ((claim_C6
      [Definition.constant "A" (ConstExpr.value 1),
       Definition.constant "B" (ConstExpr.value 2),
       Definition.constant "A" (ConstExpr.value 3)] "A").2 (by decide)).1
    have hfil : [Definition.constant "A" (ConstExpr.value 1),
        Definition.constant "B" (ConstExpr.value 2),
        Definition.constant "A" (ConstExpr.value 3)].filter (fun d => d.ident = "A") =
        [Definition.constant "A" (ConstExpr.value 1),
         Definition.constant "A" (ConstExpr.value 3)] := by decide
    rw [hfil] at h
    exact h
  · exact ((claim_C6
      [Definition.constant "A" (ConstExpr.value 1),
       Definition.constant "B" (ConstExpr.value 2),
       Definition.constant "A" (ConstExpr.value 3)] "A").2 (by decide)).2.2

/-! # Claim C7 -/

theorem evaluteConstantsFrom_lookup (pre : List (String × Definition)) :
    ∀ (post : List (String × Definition)) (c : Nat) (name iname : String) (e : ConstExpr),
    name ∉ pre.map Prod.fst →
    alookup (evaluteConstantsFrom (pre ++ (name, Definition.constant iname e) :: post) c) name =
      some (match e with
        | ConstExpr.value v => v
        | ConstExpr.freeStoragePointer => c + fspCount pre) := by
  induction pre with
  | nil =>
    intro post c name iname e _
    match e with
    | ConstExpr.value v => simp [evaluteConstantsFrom, alookup, fspCount]
    | ConstExpr.freeStoragePointer => simp [evaluteConstantsFrom, alookup, fspCount]
  | cons p rest ih =>
    intro post c name iname e hnotin
    obtain ⟨k, d⟩ := p
    have hkne : ¬ (k = name) := by
      intro hcon
      exact hnotin (by simp [hcon])
    have hnotin2 : name ∉ rest.map Prod.fst := fun h => hnotin (by simp [h])
    have htail : ∀ c2, _ := fun c2 => ih post c2 name iname e hnotin2
    match d with
    | Definition.constant i2 (ConstExpr.value v2) =>
      have hstep : evaluteConstantsFrom
          (((k, Definition.constant i2 (ConstExpr.value v2)) :: rest) ++
            (name, Definition.constant iname e) :: post) c =
          (k, v2) :: evaluteConstantsFrom
            (rest ++ (name, Definition.constant iname e) :: post) c := rfl
      rw [hstep]
      simp only [alookup]
      rw [if_neg hkne, htail c]
      match e with
      | ConstExpr.value v => rfl
      | ConstExpr.freeStoragePointer => simp [fspCount, List.filter_cons]
    | Definition.constant i2 ConstExpr.freeStoragePointer =>
      have hstep : evaluteConstantsFrom
          (((k, Definition.constant i2 ConstExpr.freeStoragePointer) :: rest) ++
            (name, Definition.constant iname e) :: post) c =
          (k, c) :: evaluteConstantsFrom
            (rest ++ (name, Definition.constant iname e) :: post) (c + 1) := rfl
      rw [hstep]
      simp only [alookup]
      rw [if_neg hkne, htail (c + 1)]
      match e with
      | ConstExpr.value v => rfl
      | ConstExpr.freeStoragePointer =>
        simp only [Option.some.injEq]
        have hcnt : fspCount ((k, Definition.constant i2 ConstExpr.freeStoragePointer) :: rest) =
            fspCount rest + 1 := by
          simp [fspCount, List.filter_cons]
        rw [hcnt]
        omega
    | Definition.macroDef mm =>
      have hstep : evaluteConstantsFrom
          (((k, Definition.macroDef mm) :: rest) ++
            (name, Definition.constant iname e) :: post) c =
          evaluteConstantsFrom (rest ++ (name, Definition.constant iname e) :: post) c := rfl
      rw [hstep, htail c]
      match e with
      | ConstExpr.value v => rfl
      | ConstExpr.freeStoragePointer => simp [fspCount, List.filter_cons]
    | Definition.jumptable a b c2 =>
      have hstep : evaluteConstantsFrom
          (((k, Definition.jumptable a b c2) :: rest) ++
            (name, Definition.constant iname e) :: post) c =
          evaluteConstantsFrom (rest ++ (name, Definition.constant iname e) :: post) c := rfl
      rw [hstep, htail c]
      match e with
      | ConstExpr.value v => rfl
      | ConstExpr.freeStoragePointer => simp [fspCount, List.filter_cons]
    | Definition.codeTable a b =>
      have hstep : evaluteConstantsFrom
          (((k, Definition.codeTable a b) :: rest) ++
            (name, Definition.constant iname e) :: post) c =
          evaluteConstantsFrom (rest ++ (name, Definition.constant iname e) :: post) c := rfl
      rw [hstep, htail c]
      match e with
      | ConstExpr.value v => rfl
      | ConstExpr.freeStoragePointer => simp [fspCount, List.filter_cons]
    | Definition.solFunction f =>
      have hstep : evaluteConstantsFrom
          (((k, Definition.solFunction f) :: rest) ++
            (name, Definition.constant iname e) :: post) c =
          evaluteConstantsFrom (rest ++ (name, Definition.constant iname e) :: post) c := rfl
      rw [hstep, htail c]
      match e with
      | ConstExpr.value v => rfl
      | ConstExpr.freeStoragePointer => simp [fspCount, List.filter_cons]
    | Definition.solEvent ev =>
      have hstep : evaluteConstantsFrom
          (((k, Definition.solEvent ev) :: rest) ++
            (name, Definition.constant iname e) :: post) c =
          evaluteConstantsFrom (rest ++ (name, Definition.constant iname e) :: post) c := rfl
      rw [hstep, htail c]
      match e with
      | ConstExpr.value v => rfl
      | ConstExpr.freeStoragePointer => simp [fspCount, List.filter_cons]
    | Definition.solError er =>
      have hstep : evaluteConstantsFrom
          (((k, Definition.solError er) :: rest) ++
            (name, Definition.constant iname e) :: post) c =
          evaluteConstantsFrom (rest ++ (name, Definition.constant iname e) :: post) c := rfl
      rw [hstep, htail c]
      match e with
      | ConstExpr.value v => rfl
      | ConstExpr.freeStoragePointer => simp [fspCount, List.filter_cons]

/-- C7: constant evaluation walks the unique definition mapping in its
iteration order; a `Value v` constant evaluates to `v`, and a
`FreeStoragePointer` constant evaluates to the number of free-storage-pointer
constants occurring strictly before it in that order (the counter starts at
zero and increments once per free-storage pointer). -/
theorem claim_C7 (defs pre post : List (String × Definition)) (name iname : String)
    (e : ConstExpr)
    (hsplit : defs = pre ++ (name, Definition.constant iname e) :: post)
    (hfresh : name ∉ pre.map Prod.fst) :
    (∀ v, e = ConstExpr.value v → alookup (evaluteConstants defs) name = some v) ∧
    (e = ConstExpr.freeStoragePointer →
      alookup (evaluteConstants defs) name = some (fspCount pre)) := by
  subst hsplit
  have h := evaluteConstantsFrom_lookup pre post 0 name iname e hfresh
  constructor
  · intro v hv
    subst hv
    simpa [evaluteConstants] using h
  · intro hv
    subst hv
    simpa [evaluteConstants] using h

/-- C7 witness: in `[A = 7, B = fsp, C-table, D = fsp]` the constants map `A`
to 7, `B` to counter value 0 and `D` to counter value 1. -/
theorem claim_C7_witness :
    alookup (evaluteConstants
      [("A", Definition.constant "A" (ConstExpr.value 7)),
       ("B", Definition.constant "B" ConstExpr.freeStoragePointer),
       ("C", Definition.codeTable "C" [1, 2]),
       ("D", Definition.constant "D" ConstExpr.freeStoragePointer)]) "A" = some 7 ∧
    alookup (evaluteConstants
      [("A", Definition.constant "A" (ConstExpr.value 7)),
       ("B", Definition.constant "B" ConstExpr.freeStoragePointer),
       ("C", Definition.codeTable "C" [1, 2]),
       ("D", Definition.constant "D" ConstExpr.freeStoragePointer)]) "B" = some 0 ∧
    alookup (evaluteConstants
      [("A", Definition.constant "A" (ConstExpr.value 7)),
       ("B", Definition.constant "B" ConstExpr.freeStoragePointer),
       ("C", Definition.codeTable "C" [1, 2]),
       ("D", Definition.constant "D" ConstExpr.freeStoragePointer)]) "D" = some 1 := by
  refine ⟨?_, ?_, ?_⟩
  · exact (claim_C7 _ []
      [("B", Definition.constant "B" ConstExpr.freeStoragePointer),
       ("C", Definition.codeTable "C" [1, 2]),
       ("D", Definition.constant "D" ConstExpr.freeStoragePointer)]
      "A" "A" (ConstExpr.value 7) rfl (by decide)).1 7 rfl
  · have h := (claim_C7 _
      [("A", Definition.constant "A" (ConstExpr.value 7))]
      [("C", Definition.codeTable "C" [1, 2]),
       ("D", Definition.constant "D" ConstExpr.freeStoragePointer)]
      "B" "B" ConstExpr.freeStoragePointer rfl (by decide)).2 rfl
    simp only [List.cons_append, List.nil_append] at h
    rw [h]
    decide
  · have h := (claim_C7 _
      [("A", Definition.constant "A" (ConstExpr.value 7)),
       ("B", Definition.constant "B" ConstExpr.freeStoragePointer),
       ("C", Definition.codeTable "C" [1, 2])]
      [] "D" "D" ConstExpr.freeStoragePointer rfl (by decide)).2 rfl
    simp only [List.cons_append, List.nil_append] at h
    rw [h]
    decide


/-! ## Keccak validation and signature lemmas -/

set_option maxRecDepth 10000

/-- Known-answer test: `keccak256("")` is the canonical empty digest. -/
theorem keccak256_empty :
    keccak256 [] =
      [0xc5, 0xd2, 0x46, 0x01, 0x86, 0xf7, 0x23, 0x3c, 0x92, 0x7e, 0x7d, 0xb2,
       0xdc, 0xc7, 0x03, 0xc0, 0xe5, 0x00, 0xb6, 0x53, 0xca, 0x82, 0x27, 0x3b,
       0x7b, 0xfa, 0xd8, 0x04, 0x5d, 0x85, 0xa4, 0x70] := by decide

/-- Known-answer test (repository test scenario 6): the
`transfer(address,uint256)` selector is `a9059cbb`. -/
theorem keccak256_transfer_selector :
    (keccak256 (strBytes "transfer(address,uint256)")).take 4 =
      [0xa9, 0x05, 0x9c, 0xbb] := by decide

theorem buildSignatureArgType_supported (t : DynSolType) (h : supportedSigType t) :
    buildSignatureArgType t = some (collapsedCanonical t) := by
  cases t <;> simp_all [supportedSigType, buildSignatureArgType, collapsedCanonical, canonicalType]

theorem mapM_buildSignatureArgType (args : List DynSolType)
    (h : ∀ t ∈ args, supportedSigType t) :
    args.mapM buildSignatureArgType = some (args.map collapsedCanonical) := by
  induction args with
  | nil => rfl
  | cons t rest ih =>
    have ht := buildSignatureArgType_supported t (h t (by simp))
    have hrest := ih (fun u hu => h u (by simp [hu]))
    rw [List.mapM_cons, ht, hrest]
    rfl

/-- On supported argument types the source's `build_signature` produces the
signature with every `uintN` collapsed to `uint256`. -/
theorem buildSignature_supported (fname : String) (args : List DynSolType)
    (h : ∀ t ∈ args, supportedSigType t) :
    buildSignature fname args =
      some (strBytes (fname ++ "(" ++
        String.intercalate "," (args.map collapsedCanonical) ++ ")")) := by
  rw [buildSignature, mapM_buildSignatureArgType args h]


/-! # Claim C1 -/

/-- C1 counterexample: for `foo(uint8)` the source's `build_signature`
renders the parameter as `uint256`, so the `__FUNC_SIG` arm of
`generate_for_macro` pushes `keccak256("foo(uint256)")[0..4]` — which is the
claim's selector for `foo(uint256)` and differs from the claimed
`keccak256("foo(uint8)")[0..4]`.  (Types outside `address`/`uintN`/`string`
do not even reach a selector: the source panics.) -/
theorem claim_C1_counterexample :
    genStmt ⟨true, false, [("foo", Definition.solFunction ⟨"foo", [DynSolType.uint 8], []⟩)], []⟩
        5 ⟨"MAIN", [], none, []⟩ [] ⟨2, LabelStack.empty, [], [], []⟩
        (MacroStatement.invoke (Invoke.builtinFuncSig "foo")) =
      some ⟨2, LabelStack.empty, [], [],
        [u256ToAsm (fromBe (claimedSelectorBytes "foo" [DynSolType.uint 256])) false]⟩ ∧
    claimedSelectorBytes "foo" [DynSolType.uint 256] ≠
      claimedSelectorBytes "foo" [DynSolType.uint 8] := by
  constructor
  · decide
  · decide

/-- C1 amended: for a Sol function whose parameter types are all supported by
the source (`address`, `uintN`, `string`), the `__FUNC_SIG` arm emits the
minimum-width push of the first 4 bytes of
`keccak256("name(r(t1),…,r(tn))")` where `r` renders `address` and `string`
canonically but every `uintN` as `uint256`; other parameter types are
unsupported (the source panics instead of emitting a selector). -/
theorem claim_C1 (fname : String) (args rets : List DynSolType)
    (g : CompileGlobals) (mdef : MacroDef) (argEnv : List (String × Asm))
    (st : GenState) (fuel : Nat) (r : String)
    (hlookup : alookup g.defs r = some (Definition.solFunction ⟨fname, args, rets⟩))
    (hsup : ∀ t ∈ args, supportedSigType t) :
    computeSelectorBytes fname args =
      some ((keccak256 (strBytes (fname ++ "(" ++
        String.intercalate "," (args.map collapsedCanonical) ++ ")"))).take 4) ∧
    genStmt g (fuel + 1) mdef argEnv st (MacroStatement.invoke (Invoke.builtinFuncSig r)) =
      some { st with asm := st.asm ++
        [u256ToAsm (fromBe ((keccak256 (strBytes (fname ++ "(" ++
          String.intercalate "," (args.map collapsedCanonical) ++ ")"))).take 4))
          g.allowPush0] } := by
  have hsig := buildSignature_supported fname args hsup
  have hsel : computeSelectorBytes fname args =
      some ((keccak256 (strBytes (fname ++ "(" ++
        String.intercalate "," (args.map collapsedCanonical) ++ ")"))).take 4) := by
    rw [computeSelectorBytes, hsig]
    rfl
  refine ⟨hsel, ?_⟩
  rw [genStmt]
  simp only [hlookup, hsel]

/-- C1 amended witness: the repository's own selector scenario,
`transfer(address,uint256)`, emits `PUSH4 a9059cbb`. -/
theorem claim_C1_witness :
    genStmt ⟨true, false,
        [("transfer", Definition.solFunction
          ⟨"transfer", [DynSolType.address, DynSolType.uint 256], [DynSolType.bool]⟩)], []⟩
        7 ⟨"MAIN", [], none, []⟩ [] ⟨2, LabelStack.empty, [], [], []⟩
        (MacroStatement.invoke (Invoke.builtinFuncSig "transfer")) =
      some ⟨2, LabelStack.empty, [], [],
        [Asm.op (Opcode.push 4 [0xa9, 0x05, 0x9c, 0xbb])]⟩ := by
  have h := (claim_C1 "transfer" [DynSolType.address, DynSolType.uint 256] [DynSolType.bool]
    ⟨true, false,
      [("transfer", Definition.solFunction
        ⟨"transfer", [DynSolType.address, DynSolType.uint 256], [DynSolType.bool]⟩)], []⟩
    ⟨"MAIN", [], none, []⟩ [] ⟨2, LabelStack.empty, [], [], []⟩ 6 "transfer"
    (by decide) (by decide)).2
  rw [h]
  decide


/-! ## Override lemmas (spec-modelled, see `applyOverrides`) -/

theorem alookup_overrideOne (cs : List (String × Nat)) (n : String) (v : Nat) (key : String) :
    alookup (overrideOne cs n v) key =
      if key = n then (alookup cs key).map (fun _ => v) else alookup cs key := by
  induction cs with
  | nil =>
    by_cases h : key = n <;> simp [overrideOne, alookup, h]
  | cons p rest ih =>
    obtain ⟨k, w⟩ := p
    have hstep : overrideOne ((k, w) :: rest) n v =
        (if k = n then (k, v) else (k, w)) :: overrideOne rest n v := rfl
    rw [hstep]
    by_cases hkn : k = n
    · rw [if_pos hkn]
      by_cases hkey : k = key
      · subst hkey
        rw [show alookup ((k, v) :: overrideOne rest n v) k = some v from by simp [alookup]]
        rw [show alookup ((k, w) :: rest) k = some w from by simp [alookup]]
        rw [if_pos hkn]
        rfl
      · rw [show alookup ((k, v) :: overrideOne rest n v) key =
          alookup (overrideOne rest n v) key from by simp [alookup, hkey]]
        rw [show alookup ((k, w) :: rest) key = alookup rest key from by simp [alookup, hkey]]
        exact ih
    · rw [if_neg hkn]
      by_cases hkey : k = key
      · subst hkey
        rw [show alookup ((k, w) :: overrideOne rest n v) k = some w from by simp [alookup]]
        rw [show alookup ((k, w) :: rest) k = some w from by simp [alookup]]
        rw [if_neg hkn]
      · rw [show alookup ((k, w) :: overrideOne rest n v) key =
          alookup (overrideOne rest n v) key from by simp [alookup, hkey]]
        rw [show alookup ((k, w) :: rest) key = alookup rest key from by simp [alookup, hkey]]
        exact ih

theorem alookup_applyOverrides_not_mem (cs : List (String × Nat))
    (ovs : List (String × Nat)) (name : String)
    (h : name ∉ ovs.map Prod.fst) :
    alookup (applyOverrides cs ovs) name = alookup cs name := by
  induction ovs generalizing cs with
  | nil => rfl
  | cons p rest ih =>
    obtain ⟨n0, v0⟩ := p
    have hne : name ≠ n0 := by
      intro hcon
      exact h (by simp [hcon])
    have hnotin : name ∉ rest.map Prod.fst := fun hmem => h (by simp [hmem])
    show alookup (applyOverrides (overrideOne cs n0 v0) rest) name = alookup cs name
    rw [ih (overrideOne cs n0 v0) hnotin, alookup_overrideOne]
    simp [hne]

theorem alookup_applyOverrides_mem (ovs : List (String × Nat)) :
    ∀ (cs : List (String × Nat)) (name : String) (v w : Nat),
    (ovs.map Prod.fst).Nodup → (name, v) ∈ ovs → alookup cs name = some w →
    alookup (applyOverrides cs ovs) name = some v := by
  induction ovs with
  | nil =>
    intro _ _ _ _ _ hmem
    simp at hmem
  | cons p rest ih =>
    intro cs name v w hnodup hmem hsome
    obtain ⟨n0, v0⟩ := p
    have hmap : ((n0, v0) :: rest).map Prod.fst = n0 :: rest.map Prod.fst := rfl
    rw [hmap, List.nodup_cons] at hnodup
    obtain ⟨hn0, hrest⟩ := hnodup
    rcases List.mem_cons.mp hmem with hhd | htl
    · have h1 : name = n0 := congrArg Prod.fst hhd
      have h2 : v = v0 := congrArg Prod.snd hhd
      subst h1
      subst h2
      show alookup (applyOverrides (overrideOne cs name v) rest) name = some v
      rw [alookup_applyOverrides_not_mem _ _ _ hn0, alookup_overrideOne]
      simp [hsome]
    · have hname_in : name ∈ rest.map Prod.fst := List.mem_map.mpr ⟨(name, v), htl, rfl⟩
      have hne : name ≠ n0 := by
        intro hcon
        rw [hcon] at hname_in
        exact hn0 hname_in
      have hsome2 : alookup (overrideOne cs n0 v0) name = some w := by
        rw [alookup_overrideOne]
        simp [hne, hsome]
      exact ih (overrideOne cs n0 v0) name v w hrest htl hsome2


/-! # Claim C3 -/

/-- C3 (spec-modelled override application): a caller-supplied override
`(name, v)` whose name names a `Constant` definition makes the constants
mapping handed to the expander map `name` to `v`, so every
`ConstantReference` to `name` expands to a push of `v`. -/
theorem claim_C3 (defs : List (String × Definition)) (overrides : List (String × Nat))
    (pre post : List (String × Definition)) (name iname : String) (e : ConstExpr)
    (v : Nat) (minimize allowPush0 : Bool) (argEnv : List (String × Asm))
    (ls : LabelStack Nat)
    (hnodup : (overrides.map Prod.fst).Nodup)
    (hmem : (name, v) ∈ overrides)
    (hsplit : defs = pre ++ (name, Definition.constant iname e) :: post)
    (hfresh : name ∉ pre.map Prod.fst) :
    alookup (compileGlobalsNew minimize allowPush0 defs overrides).constants name = some v ∧
    instructionToAsm (compileGlobalsNew minimize allowPush0 defs overrides) argEnv ls
        (Instruction.constantReference name) = some (u256ToAsm v allowPush0) := by
  have hbase : ∃ w, alookup (evaluteConstants defs) name = some w := by
    subst hsplit
    exact ⟨_, evaluteConstantsFrom_lookup pre post 0 name iname e hfresh⟩
  obtain ⟨w, hw⟩ := hbase
  have hconst : alookup (compileGlobalsNew minimize allowPush0 defs overrides).constants name =
      some v := by
    show alookup (applyOverrides (evaluteConstants defs) overrides) name = some v
    exact alookup_applyOverrides_mem overrides (evaluteConstants defs) name v w hnodup hmem hw
  refine ⟨hconst, ?_⟩
  simp only [instructionToAsm]
  rw [hconst]
  rfl

/-- C3 witness: overriding `K = 0x1` with `K = 0x2a` makes `[K]` expand to
`PUSH1 0x2a` (repository test scenario 5). -/
theorem claim_C3_witness :
    alookup (compileGlobalsNew true false
        [("K", Definition.constant "K" (ConstExpr.value 1))] [("K", 42)]).constants "K" =
      some 42 ∧
    instructionToAsm (compileGlobalsNew true false
        [("K", Definition.constant "K" (ConstExpr.value 1))] [("K", 42)]) []
        LabelStack.empty (Instruction.constantReference "K") =
      some (Asm.op (Opcode.push 1 [42])) := by
  have h := claim_C3 [("K", Definition.constant "K" (ConstExpr.value 1))] [("K", 42)]
    [] [] "K" "K" (ConstExpr.value 1) 42 true false [] LabelStack.empty
    (by decide) (by decide) rfl (by decide)
  refine ⟨h.1, ?_⟩
  rw [h.2]
  decide


/-! ## Label stack lemmas -/

theorem LabelStack.get_push {V : Type} (s : LabelStack V) (x : String) (v : V) (l : String) :
    (s.push x v).get l = if x = l then some v else s.get l := by
  by_cases h : x = l <;> simp [LabelStack.push, LabelStack.get, List.find?, h]

theorem LabelStack.hasLabel_push {V : Type} (s : LabelStack V) (x : String) (v : V) (l : String) :
    ((s.push x v).hasLabel l = true) ↔ (x = l ∨ s.hasLabel l = true) := by
  by_cases h : x = l <;> simp [LabelStack.hasLabel, LabelStack.get_push, h]

theorem foldl_push_shape {V : Type} (f : String → V) (labels : List String) :
    ∀ ls : LabelStack V,
    ∃ extra : List (String × V),
      (labels.foldl (fun s l => s.push l (f l)) ls).contextSizes = ls.contextSizes ∧
      (labels.foldl (fun s l => s.push l (f l)) ls).stack = extra ++ ls.stack := by
  induction labels with
  | nil => intro ls; exact ⟨[], rfl, rfl⟩
  | cons x rest ih =>
    intro ls
    obtain ⟨extra, h1, h2⟩ := ih (ls.push x (f x))
    exact ⟨extra ++ [(x, f x)], by simpa [LabelStack.push] using h1,
      by simpa [LabelStack.push] using h2⟩

theorem hasLabel_foldl_push (labels : List String) :
    ∀ (ls : LabelStack Unit) (l : String),
    ((labels.foldl (fun s x => s.push x ()) ls).hasLabel l = true) ↔
      (l ∈ labels ∨ ls.hasLabel l = true) := by
  induction labels with
  | nil => intro ls l; simp
  | cons x rest ih =>
    intro ls l
    simp only [List.foldl_cons]
    rw [ih (ls.push x ()) l]
    rw [LabelStack.hasLabel_push]
    constructor
    · rintro (h | h | h)
      · exact Or.inl (by simp [h])
      · exact Or.inl (by simp [h.symm])
      · exact Or.inr h
    · rintro (h | h)
      · rcases List.mem_cons.mp h with h1 | h1
        · exact Or.inr (Or.inl h1.symm)
        · exact Or.inl h1
      · exact Or.inr (Or.inr h)

/-- `leave_context` undoes `enter_context` plus any run of pushes. -/
theorem leaveContext_of_extra {V : Type} (ls s2 : LabelStack V) (extra : List (String × V))
    (hctx : s2.contextSizes = ls.stack.length :: ls.contextSizes)
    (hstk : s2.stack = extra ++ ls.stack) :
    s2.leaveContext = ls := by
  have : s2.leaveContext =
      ⟨ls.contextSizes, (extra ++ ls.stack).drop ((extra ++ ls.stack).length - ls.stack.length)⟩ := by
    rw [LabelStack.leaveContext]
    rw [hctx]
    simp [hstk]
  rw [this]
  have hlen : (extra ++ ls.stack).length - ls.stack.length = extra.length := by
    simp
  rw [hlen, List.drop_left]


theorem foldl_push_shape_unit (labels : List String) :
    ∀ ls : LabelStack Unit,
    ∃ extra : List (String × Unit),
      (labels.foldl (fun s l => s.push l ()) ls).contextSizes = ls.contextSizes ∧
      (labels.foldl (fun s l => s.push l ()) ls).stack = extra ++ ls.stack := by
  induction labels with
  | nil => intro ls; exact ⟨[], rfl, rfl⟩
  | cons x rest ih =>
    intro ls
    obtain ⟨extra, h1, h2⟩ := ih (ls.push x ())
    exact ⟨extra ++ [(x, ())], by simpa [LabelStack.push] using h1,
      by simpa [LabelStack.push] using h2⟩

/-- The label scope opened by `analyze` closes back to the incoming stack. -/
theorem analyzeBody_leave (m : MacroDef) (ls ls2 : LabelStack Unit)
    (h : ls2 = (labelDefsOf m).foldl (fun s l => s.push l ()) ls.enterContext) :
    ls2.leaveContext = ls := by
  obtain ⟨extra, h1, h2⟩ := foldl_push_shape_unit (labelDefsOf m) ls.enterContext
  subst h
  exact leaveContext_of_extra ls _ extra (by simpa [LabelStack.enterContext] using h1)
    (by simpa [LabelStack.enterContext] using h2)

/-- Restoration: every analysis function hands back the label stack it was
given (callee-defined labels are invisible to siblings and to the remainder
of the caller's body). -/
theorem analysis_restores : ∀ fuel : Nat,
    (∀ gd m ls inv out, analyzeMacro gd fuel m ls inv = some out → out.2.2 = ls) ∧
    (∀ gd m ls inv stmts out, analyzeStmts gd fuel m ls inv stmts = some out → out.2.2 = ls) ∧
    (∀ gd m ls inv stmt out, analyzeStmt gd fuel m ls inv stmt = some out → out.2.2 = ls) ∧
    (∀ gd m ls inv name args ts out,
      analyzeTargets gd fuel m ls inv name args ts = some out → out.2.2 = ls) := by
  intro fuel
  induction fuel with
  | zero =>
    refine ⟨?_, ?_, ?_, ?_⟩ <;> intro gd m ls inv
    · intro out h; simp [analyzeMacro] at h
    · intro stmts out h; simp [analyzeStmts] at h
    · intro stmt out h; simp [analyzeStmt] at h
    · intro name args ts out h; simp [analyzeTargets] at h
  | succ fuel ih =>
    obtain ⟨ihM, ihSs, ihS, ihT⟩ := ih
    refine ⟨?_, ?_, ?_, ?_⟩
    · intro gd m ls inv out h
      simp only [analyzeMacro] at h
      split at h
      · injection h with h
        subst h
        rfl
      · rcases heq : analyzeStmts gd fuel m
          ((labelDefsOf m).foldl (fun s l => s.push l ()) ls.enterContext) inv m.body with _ | r
        · rw [heq] at h; exact absurd h (by simp)
        · rw [heq] at h
          obtain ⟨ds, ws, ls2⟩ := r
          injection h with h
          subst h
          have hls2 : ls2 = (labelDefsOf m).foldl (fun s l => s.push l ()) ls.enterContext :=
            ihSs gd m _ inv m.body (ds, ws, ls2) heq
          exact analyzeBody_leave m ls ls2 hls2
    · intro gd m ls inv stmts out h
      simp only [analyzeStmts] at h
      match stmts with
      | [] =>
        simp at h
        rw [← h]
      | stmt :: rest =>
        simp only at h
        rcases heq1 : analyzeStmt gd fuel m ls inv stmt with _ | r1
        · rw [heq1] at h; exact absurd h (by simp)
        · rw [heq1] at h
          obtain ⟨ds1, ws1, ls1⟩ := r1
          rcases heq2 : analyzeStmts gd fuel m ls1 inv rest with _ | r2
          · simp only [heq2] at h; exact absurd h (by simp)
          · simp only [heq2] at h
            obtain ⟨ds2, ws2, ls2⟩ := r2
            injection h with h
            subst h
            have e1 : ls1 = ls := ihS gd m ls inv stmt (ds1, ws1, ls1) heq1
            have e2 : ls2 = ls1 := ihSs gd m ls1 inv rest (ds2, ws2, ls2) heq2
            simp [e1, e2]
    · intro gd m ls inv stmt out h
      simp only [analyzeStmt] at h
      match stmt with
      | MacroStatement.labelDefinition l =>
        simp at h
        rw [← h]
      | MacroStatement.instruction i =>
        simp at h
        rw [← h]
      | MacroStatement.invoke (Invoke.macroInvoke name args) =>
        simp only at h
        rcases heq : analyzeTargets gd fuel m ls (inv ++ [(m, name)]) name args
            (macrosNamed gd name) with _ | r
        · rw [heq] at h; exact absurd h (by simp)
        · rw [heq] at h
          obtain ⟨ds, ws, ls1⟩ := r
          injection h with h
          subst h
          exact ihT gd m ls (inv ++ [(m, name)]) name args (macrosNamed gd name)
            (ds, ws, ls1) heq
      | MacroStatement.invoke (Invoke.builtinTableStart r) =>
        simp at h; rw [← h]
      | MacroStatement.invoke (Invoke.builtinTableSize r) =>
        simp at h; rw [← h]
      | MacroStatement.invoke (Invoke.builtinCodeSize r) =>
        simp at h; rw [← h]
      | MacroStatement.invoke (Invoke.builtinCodeOffset r) =>
        simp at h; rw [← h]
      | MacroStatement.invoke (Invoke.builtinFuncSig r) =>
        simp at h; rw [← h]
      | MacroStatement.invoke (Invoke.builtinError r) =>
        simp at h; rw [← h]
      | MacroStatement.invoke (Invoke.builtinEventHash r) =>
        simp at h; rw [← h]
    · intro gd m ls inv name args ts out h
      simp only [analyzeTargets] at h
      match ts with
      | [] =>
        simp at h
        rw [← h]
      | t :: rest =>
        simp only at h
        rcases heq1 : analyzeMacro gd fuel t ls inv with _ | r1
        · rw [heq1] at h; exact absurd h (by simp)
        · rw [heq1] at h
          obtain ⟨ds1, ws1, ls1⟩ := r1
          rcases heq2 : analyzeTargets gd fuel m ls1 inv name args rest with _ | r2
          · simp only [heq2] at h; exact absurd h (by simp)
          · simp only [heq2] at h
            obtain ⟨ds2, ws2, ls2⟩ := r2
            injection h with h
            subst h
            have e1 : ls1 = ls := ihM gd t ls inv (ds1, ws1, ls1) heq1
            have e2 : ls2 = ls1 := ihT gd m ls1 inv name args rest (ds2, ws2, ls2) heq2
            simp [e1, e2]


/-! ## Expansion label-scope lemmas -/

theorem mintLabels_shape (body : List MacroStatement) :
    ∀ st : GenState,
    ∃ extra : List (String × Nat),
      (mintLabels body st).labels.contextSizes = st.labels.contextSizes ∧
      (mintLabels body st).labels.stack = extra ++ st.labels.stack ∧
      (mintLabels body st).includedMacros = st.includedMacros ∧
      (mintLabels body st).includedTables = st.includedTables ∧
      (mintLabels body st).asm = st.asm := by
  induction body with
  | nil => intro st; exact ⟨[], rfl, rfl, rfl, rfl, rfl⟩
  | cons stmt rest ih =>
    intro st
    match stmt with
    | MacroStatement.labelDefinition name =>
      obtain ⟨extra, h1, h2, h3, h4, h5⟩ :=
        ih { st with labels := st.labels.push name st.marks, marks := st.marks + 1 }
      exact ⟨extra ++ [(name, st.marks)],
        by simpa [mintLabels, LabelStack.push] using h1,
        by simpa [mintLabels, LabelStack.push] using h2,
        by simpa [mintLabels] using h3,
        by simpa [mintLabels] using h4,
        by simpa [mintLabels] using h5⟩
    | MacroStatement.instruction i =>
      obtain ⟨extra, h1, h2, h3, h4, h5⟩ := ih st
      exact ⟨extra, by simpa [mintLabels] using h1, by simpa [mintLabels] using h2,
        by simpa [mintLabels] using h3, by simpa [mintLabels] using h4,
        by simpa [mintLabels] using h5⟩
    | MacroStatement.invoke iv =>
      obtain ⟨extra, h1, h2, h3, h4, h5⟩ := ih st
      exact ⟨extra, by simpa [mintLabels] using h1, by simpa [mintLabels] using h2,
        by simpa [mintLabels] using h3, by simpa [mintLabels] using h4,
        by simpa [mintLabels] using h5⟩

/-- Restoration on the expansion side: `generate_for_macro` hands back the
label scope stack it was given. -/
theorem gen_restores : ∀ fuel : Nat,
    (∀ g cur argv st st2, genMacro g fuel cur argv st = some st2 → st2.labels = st.labels) ∧
    (∀ g cur args st stmts st2, genStmts g fuel cur args st stmts = some st2 →
      st2.labels = st.labels) ∧
    (∀ g cur args st stmt st2, genStmt g fuel cur args st stmt = some st2 →
      st2.labels = st.labels) := by
  intro fuel
  induction fuel with
  | zero =>
    refine ⟨?_, ?_, ?_⟩
    · intro g cur argv st st2 h
      simp [genMacro] at h
    · intro g cur args st stmts st2 h
      simp [genStmts] at h
    · intro g cur args st stmt st2 h
      simp [genStmt] at h
  | succ fuel ih =>
    obtain ⟨ihM, ihSs, ihS⟩ := ih
    refine ⟨?_, ?_, ?_⟩
    · intro g cur argv st st2 h
      simp only [genMacro] at h
      rcases heq : genStmts g fuel cur (cur.args.zip argv)
          (mintLabels cur.body { st with labels := st.labels.enterContext }) cur.body with _ | r
      · rw [heq] at h; exact absurd h (by simp)
      · rw [heq] at h
        injection h with h
        subst h
        have hr := ihSs g cur (cur.args.zip argv) _ cur.body r heq
        obtain ⟨extra, h1, h2, _, _, _⟩ :=
          mintLabels_shape cur.body { st with labels := st.labels.enterContext }
        show r.labels.leaveContext = st.labels
        rw [hr]
        exact leaveContext_of_extra st.labels _ extra
          (by simpa [LabelStack.enterContext] using h1)
          (by simpa [LabelStack.enterContext] using h2)
    · intro g cur args st stmts st2 h
      simp only [genStmts] at h
      match stmts with
      | [] =>
        simp at h
        rw [← h]
      | stmt :: rest =>
        simp only at h
        rcases heq1 : genStmt g fuel cur args st stmt with _ | st1
        · rw [heq1] at h; exact absurd h (by simp)
        · rw [heq1] at h
          have e1 : st1.labels = st.labels := ihS g cur args st stmt st1 heq1
          have e2 : st2.labels = st1.labels := ihSs g cur args st1 rest st2 h
          rw [e2, e1]
    · intro g cur args st stmt st2 h
      simp only [genStmt] at h
      match stmt with
      | MacroStatement.labelDefinition name =>
        simp only at h
        rcases heq : st.labels.get name with _ | mk
        · rw [heq] at h; exact absurd h (by simp)
        · rw [heq] at h
          simp at h
          rw [← h]
      | MacroStatement.instruction i =>
        simp only at h
        rcases heq : instructionToAsm g args st.labels i with _ | a
        · rw [heq] at h; exact absurd h (by simp)
        · rw [heq] at h
          simp at h
          rw [← h]
      | MacroStatement.invoke (Invoke.macroInvoke name margs) =>
        simp only at h
        rcases heq : alookup g.defs name with _ | d
        · rw [heq] at h; exact absurd h (by simp)
        · rw [heq] at h
          match d with
          | Definition.macroDef target =>
            simp only at h
            rcases heq2 : margs.mapM (instructionToAsm g args st.labels) with _ | vals
            · rw [heq2] at h; exact absurd h (by simp)
            · rw [heq2] at h
              exact ihM g target vals st st2 h
          | Definition.constant a b => exact absurd h (by simp)
          | Definition.jumptable a b c => exact absurd h (by simp)
          | Definition.codeTable a b => exact absurd h (by simp)
          | Definition.solFunction f => exact absurd h (by simp)
          | Definition.solEvent e => exact absurd h (by simp)
          | Definition.solError e => exact absurd h (by simp)
      | MacroStatement.invoke (Invoke.builtinCodeSize r) =>
        simp only at h
        rcases heq : st.includedMacros.find? (fun im => im.name = r) with _ | im
        · rw [heq] at h
          simp at h
          rw [← h]
        · rw [heq] at h
          simp at h
          rw [← h]
      | MacroStatement.invoke (Invoke.builtinCodeOffset r) =>
        simp only at h
        rcases heq : st.includedMacros.find? (fun im => im.name = r) with _ | im
        · rw [heq] at h
          simp at h
          rw [← h]
        · rw [heq] at h
          simp at h
          rw [← h]
      | MacroStatement.invoke (Invoke.builtinTableStart r) =>
        simp only at h
        rcases heq : st.includedTables.find? (fun t => t.name = r) with _ | t
        · rw [heq] at h; exact absurd h (by simp)
        · rw [heq] at h
          simp at h
          rw [← h]
      | MacroStatement.invoke (Invoke.builtinTableSize r) =>
        simp only at h
        rcases heq : st.includedTables.find? (fun t => t.name = r) with _ | t
        · rw [heq] at h; exact absurd h (by simp)
        · rw [heq] at h
          simp at h
          rw [← h]
      | MacroStatement.invoke (Invoke.builtinFuncSig r) =>
        simp only at h
        rcases heq : alookup g.defs r with _ | d
        · rw [heq] at h; exact absurd h (by simp)
        · rw [heq] at h
          match d with
          | Definition.solFunction f =>
            simp only at h
            rcases heq2 : computeSelectorBytes f.name f.args with _ | sel
            · rw [heq2] at h; exact absurd h (by simp)
            · rw [heq2] at h
              simp at h
              rw [← h]
          | Definition.macroDef mm => exact absurd h (by simp)
          | Definition.constant a b => exact absurd h (by simp)
          | Definition.jumptable a b c => exact absurd h (by simp)
          | Definition.codeTable a b => exact absurd h (by simp)
          | Definition.solEvent e => exact absurd h (by simp)
          | Definition.solError e => exact absurd h (by simp)
      | MacroStatement.invoke (Invoke.builtinEventHash r) => simp at h
      | MacroStatement.invoke (Invoke.builtinError r) => simp at h


/-! # Claim C5 -/

/-- C5: label scoping across macro invocation, in analysis and expansion.
(1) While macro `N` is analysed (invoked from `M`), its body's label
references are checked against `N`'s freshly pushed labels layered over the
incoming stack (which holds `M`'s and all transitive callers' labels): the
reference is accepted exactly when the label is defined in `N` or visible in
the incoming stack.  (2)/(3) After an invocation returns, the label stack is
exactly what it was before it (macro- and statement-granularity), so a
callee's labels are invisible to subsequently analysed siblings and to the
rest of the caller's body.  (4) Lookup is innermost-first: a pushed binding
shadows outer ones.  (5) Expansion resolves a label reference to the mark
found by the same innermost-first lookup, and (6) `generate_for_macro`
restores the label scope stack on return. -/
theorem claim_C5 :
    (∀ (gd : GlobalDefs) (n : MacroDef) (ls : LabelStack Unit) (inv : InvokeStack) (l : String),
      analyzeInstr gd n ((labelDefsOf n).foldl (fun s x => s.push x ()) ls.enterContext) inv
          (Instruction.labelReference l) = [] ↔
        (l ∈ labelDefsOf n ∨ ls.hasLabel l = true)) ∧
    (∀ (fuel : Nat) (gd : GlobalDefs) (m : MacroDef) (ls : LabelStack Unit) (inv : InvokeStack)
        (ds : List AnalysisError) (ws : List String) (ls2 : LabelStack Unit),
      analyzeMacro gd fuel m ls inv = some (ds, ws, ls2) → ls2 = ls) ∧
    (∀ (fuel : Nat) (gd : GlobalDefs) (m : MacroDef) (ls : LabelStack Unit) (inv : InvokeStack)
        (stmt : MacroStatement) (ds : List AnalysisError) (ws : List String)
        (ls2 : LabelStack Unit),
      analyzeStmt gd fuel m ls inv stmt = some (ds, ws, ls2) → ls2 = ls) ∧
    (∀ (V : Type) (s : LabelStack V) (x : String) (v : V) (l : String),
      (s.push x v).get l = if x = l then some v else s.get l) ∧
    (∀ (g : CompileGlobals) (argEnv : List (String × Asm)) (ls : LabelStack Nat) (l : String),
      instructionToAsm g argEnv ls (Instruction.labelReference l) = (ls.get l).map Asm.mref) ∧
    (∀ (fuel : Nat) (g : CompileGlobals) (cur : MacroDef) (argv : List Asm) (st st2 : GenState),
      genMacro g fuel cur argv st = some st2 → st2.labels = st.labels) := by
  refine ⟨?_, ?_, ?_, ?_, ?_, ?_⟩
  · intro gd n ls inv l
    have hbody := hasLabel_foldl_push (labelDefsOf n) ls.enterContext l
    have henter : (ls.enterContext).hasLabel l = ls.hasLabel l := rfl
    rw [henter] at hbody
    simp only [analyzeInstr]
    by_cases h : ((labelDefsOf n).foldl (fun s x => s.push x ()) ls.enterContext).hasLabel l
    · simp only [h, if_true]
      simp only [true_iff]
      exact hbody.mp h
    · simp only [h]
      rw [if_neg (by simpa using h)]
      constructor
      · intro hcon
        simp at hcon
      · intro hcon
        exact absurd (hbody.mpr hcon) h
  · intro fuel gd m ls inv ds ws ls2 h
    exact (analysis_restores fuel).1 gd m ls inv (ds, ws, ls2) h
  · intro fuel gd m ls inv stmt ds ws ls2 h
    exact (analysis_restores fuel).2.2.1 gd m ls inv stmt (ds, ws, ls2) h
  · intro V s x v l
    exact LabelStack.get_push s x v l
  · intro g argEnv ls l
    rfl
  · intro fuel g cur argv st st2 h
    exact (gen_restores fuel).1 g cur argv st st2 h

/-- C5 witness: `OTHER`'s body sees the caller's label `wow` (repository
test `nested_label_ref_valid`); after a run the incoming stack is returned
unchanged; expansion resolves a fresh local mark innermost-first. -/
theorem claim_C5_witness :
    (analyzeInstr [] ⟨"OTHER", [], none,
        [MacroStatement.instruction (Instruction.labelReference "wow")]⟩
        ((labelDefsOf ⟨"OTHER", [], none,
          [MacroStatement.instruction (Instruction.labelReference "wow")]⟩).foldl
            (fun s x => s.push x ())
            (LabelStack.mk [] [("wow", ())]).enterContext) []
        (Instruction.labelReference "wow") = [] ↔
      ("wow" ∈ labelDefsOf ⟨"OTHER", [], none,
        [MacroStatement.instruction (Instruction.labelReference "wow")]⟩ ∨
       (LabelStack.mk [] [("wow", ())]).hasLabel "wow" = true)) ∧
    ("wow" ∈ labelDefsOf ⟨"OTHER", [], none,
      [MacroStatement.instruction (Instruction.labelReference "wow")]⟩ ∨
     (LabelStack.mk [] [("wow", ())]).hasLabel "wow" = true) ∧
    analyzeMacro [] 10 ⟨"OTHER", [], none,
        [MacroStatement.instruction (Instruction.labelReference "wow")]⟩
        (LabelStack.mk [] [("wow", ())]) [] =
      some ([], [], LabelStack.mk [] [("wow", ())]) ∧
    genMacro ⟨true, false, [], []⟩ 10
        ⟨"M", [], none, [MacroStatement.labelDefinition "x",
          MacroStatement.instruction (Instruction.labelReference "x")]⟩ []
        ⟨5, LabelStack.mk [] [("outer", 3)], [], [], []⟩ =
      some ⟨6, LabelStack.mk [] [("outer", 3)], [], [],
        [Asm.mark 5, Asm.op Opcode.JUMPDEST, Asm.mref 5]⟩ ∧
    (GenState.mk 6 (LabelStack.mk [] [("outer", 3)]) [] []
        [Asm.mark 5, Asm.op Opcode.JUMPDEST, Asm.mref 5]).labels =
      (GenState.mk 5 (LabelStack.mk [] [("outer", 3)]) [] [] []).labels := by
  refine ⟨?_, by decide, by decide, ?_, ?_⟩
  · exact claim_C5.1 [] _ _ [] "wow"
  · decide
  · exact claim_C5.2.2.2.2.2 10 ⟨true, false, [], []⟩
      ⟨"M", [], none, [MacroStatement.labelDefinition "x",
        MacroStatement.instruction (Instruction.labelReference "x")]⟩ []
      ⟨5, LabelStack.mk [] [("outer", 3)], [], [], []⟩ _ (by decide)


/-! ## Recursive-invocation chain lemmas -/

theorem chainsClosed_nil : chainsClosed [] := by
  intro chain h
  simp at h

theorem chainsClosed_append (a b : List AnalysisError)
    (ha : chainsClosed a) (hb : chainsClosed b) : chainsClosed (a ++ b) := by
  intro chain h
  rcases List.mem_append.mp h with h | h
  · exact ha chain h
  · exact hb chain h

theorem chainsClosed_of_no_rec (a : List AnalysisError)
    (h : ∀ chain, AnalysisError.recursiveMacroInvocation chain ∉ a) : chainsClosed a := by
  intro chain hmem
  exact absurd hmem (h chain)

theorem analyzeInstr_no_rec (gd : GlobalDefs) (m : MacroDef) (ls : LabelStack Unit)
    (inv : InvokeStack) (i : Instruction) (chain : InvokeStack) :
    AnalysisError.recursiveMacroInvocation chain ∉ analyzeInstr gd m ls inv i := by
  match i with
  | Instruction.op o => simp [analyzeInstr]
  | Instruction.variablePush v => simp [analyzeInstr]
  | Instruction.labelReference l =>
    simp only [analyzeInstr]
    split <;> simp
  | Instruction.macroArgReference a =>
    simp only [analyzeInstr]
    split <;> simp
  | Instruction.constantReference c =>
    simp only [analyzeInstr]
    split <;> simp

theorem argFold_no_rec (gd : GlobalDefs) (m : MacroDef) (ls : LabelStack Unit)
    (inv : InvokeStack) (args : List Instruction) (chain : InvokeStack) :
    AnalysisError.recursiveMacroInvocation chain ∉
      args.foldr (fun a acc => analyzeInstr gd m ls inv a ++ acc) [] := by
  induction args with
  | nil => simp
  | cons a rest ih =>
    simp only [List.foldr_cons, List.mem_append]
    rintro (h | h)
    · exact analyzeInstr_no_rec gd m ls inv a chain h
    · exact ih h

theorem dupDiags_no_rec (mk : List String → AnalysisError)
    (hmk : ∀ g chain, mk g ≠ AnalysisError.recursiveMacroInvocation chain)
    (groups : List (String × List String)) (chain : InvokeStack) :
    AnalysisError.recursiveMacroInvocation chain ∉ dupDiags mk groups := by
  intro h
  simp only [dupDiags, List.mem_filterMap] at h
  obtain ⟨g, _, hg⟩ := h
  split at hg
  · injection hg with hg
    exact hmk g.2 chain hg
  · exact absurd hg (by simp)

theorem getLast?_append_singleton {α : Type} (xs : List α) (a : α) :
    (xs ++ [a]).getLast? = some a := by
  induction xs with
  | nil => rfl
  | cons x rest ih =>
    rw [List.cons_append, List.getLast?_cons, ih]
    cases rest <;> simp at ih ⊢ <;> simp [ih]

/-- Soundness of reported recursion chains: under an ident-consistent
definition map, every emitted `RecursiveMacroInvocation` chain is nonempty
and its final invoked name equals the name of some caller in the chain. -/
theorem analysis_chains_closed : ∀ fuel : Nat,
    (∀ gd m ls inv out,
      (∀ key t, t ∈ macrosNamed gd key → t.name = key) →
      (inv = [] ∨ ∃ pLast, inv.getLast? = some pLast ∧ pLast.2 = m.name) →
      analyzeMacro gd fuel m ls inv = some out → chainsClosed out.1) ∧
    (∀ gd m ls inv stmts out,
      (∀ key t, t ∈ macrosNamed gd key → t.name = key) →
      analyzeStmts gd fuel m ls inv stmts = some out → chainsClosed out.1) ∧
    (∀ gd m ls inv stmt out,
      (∀ key t, t ∈ macrosNamed gd key → t.name = key) →
      analyzeStmt gd fuel m ls inv stmt = some out → chainsClosed out.1) ∧
    (∀ gd m ls inv name args ts out,
      (∀ key t, t ∈ macrosNamed gd key → t.name = key) →
      (∀ t ∈ ts, MacroDef.name t = name) →
      (∃ pLast, inv.getLast? = some pLast ∧ pLast.2 = name) →
      analyzeTargets gd fuel m ls inv name args ts = some out → chainsClosed out.1) := by
  intro fuel
  induction fuel with
  | zero =>
    refine ⟨?_, ?_, ?_, ?_⟩
    · intro gd m ls inv out _ _ h; simp [analyzeMacro] at h
    · intro gd m ls inv stmts out _ h; simp [analyzeStmts] at h
    · intro gd m ls inv stmt out _ h; simp [analyzeStmt] at h
    · intro gd m ls inv name args ts out _ _ _ h; simp [analyzeTargets] at h
  | succ fuel ih =>
    obtain ⟨ihM, ihSs, ihS, ihT⟩ := ih
    refine ⟨?_, ?_, ?_, ?_⟩
    · intro gd m ls inv out hgd hinv h
      simp only [analyzeMacro] at h
      split at h
      · next hrec =>
        injection h with h
        subst h
        intro chain hchain
        simp only [List.mem_singleton] at hchain
        injection hchain with hchain
        subst hchain
        rcases hinv with hinv | ⟨pLast, hl, hn⟩
        · subst hinv
          simp at hrec
        · refine ⟨pLast, hl, ?_⟩
          rcases List.any_eq_true.mp hrec with ⟨p, hp, hpn⟩
          exact ⟨p, hp, by rw [of_decide_eq_true hpn, hn]⟩
      · rcases heq : analyzeStmts gd fuel m
            ((labelDefsOf m).foldl (fun s l => s.push l ()) ls.enterContext) inv m.body
          with _ | r
        · rw [heq] at h; exact absurd h (by simp)
        · rw [heq] at h
          obtain ⟨ds, ws, ls2⟩ := r
          injection h with h
          subst h
          refine chainsClosed_append _ _ (chainsClosed_append _ _ ?_ ?_) ?_
          · exact chainsClosed_of_no_rec _ (fun chain =>
              dupDiags_no_rec _ (fun g c => by simp) _ chain)
          · exact chainsClosed_of_no_rec _ (fun chain =>
              dupDiags_no_rec _ (fun g c => by simp) _ chain)
          · exact ihSs gd m _ inv m.body (ds, ws, ls2) hgd heq
    · intro gd m ls inv stmts out hgd h
      simp only [analyzeStmts] at h
      match stmts with
      | [] =>
        simp at h
        rw [← h]
        exact chainsClosed_nil
      | stmt :: rest =>
        simp only at h
        rcases heq1 : analyzeStmt gd fuel m ls inv stmt with _ | r1
        · rw [heq1] at h; exact absurd h (by simp)
        · rw [heq1] at h
          obtain ⟨ds1, ws1, ls1⟩ := r1
          rcases heq2 : analyzeStmts gd fuel m ls1 inv rest with _ | r2
          · simp only [heq2] at h; exact absurd h (by simp)
          · simp only [heq2] at h
            obtain ⟨ds2, ws2, ls2⟩ := r2
            injection h with h
            subst h
            exact chainsClosed_append _ _
              (ihS gd m ls inv stmt (ds1, ws1, ls1) hgd heq1)
              (ihSs gd m ls1 inv rest (ds2, ws2, ls2) hgd heq2)
    · intro gd m ls inv stmt out hgd h
      simp only [analyzeStmt] at h
      match stmt with
      | MacroStatement.labelDefinition l =>
        simp at h
        rw [← h]
        exact chainsClosed_nil
      | MacroStatement.instruction i =>
        simp at h
        rw [← h]
        exact chainsClosed_of_no_rec _ (fun chain => analyzeInstr_no_rec gd m ls inv i chain)
      | MacroStatement.invoke (Invoke.macroInvoke name args) =>
        simp only at h
        rcases heq : analyzeTargets gd fuel m ls (inv ++ [(m, name)]) name args
            (macrosNamed gd name) with _ | r
        · rw [heq] at h; exact absurd h (by simp)
        · rw [heq] at h
          obtain ⟨ds, ws, ls1⟩ := r
          injection h with h
          subst h
          refine chainsClosed_append _ _ (chainsClosed_append _ _ ?_ ?_) ?_
          · exact chainsClosed_of_no_rec _ (fun chain =>
              argFold_no_rec gd m ls inv args chain)
          · refine chainsClosed_of_no_rec _ (fun chain hmem => ?_)
            split at hmem <;> simp at hmem
          · exact ihT gd m ls (inv ++ [(m, name)]) name args (macrosNamed gd name)
              (ds, ws, ls1) hgd (fun t ht => hgd name t ht)
              ⟨(m, name), getLast?_append_singleton inv (m, name), rfl⟩ heq
      | MacroStatement.invoke (Invoke.builtinTableStart r) =>
        simp only at h
        injection h with h
        subst h
        refine chainsClosed_of_no_rec _ (fun chain hmem => ?_)
        rcases List.mem_append.mp hmem with hmem | hmem
        · split at hmem <;> simp at hmem
        · simp at hmem
      | MacroStatement.invoke (Invoke.builtinTableSize r) =>
        simp only at h
        injection h with h
        subst h
        refine chainsClosed_of_no_rec _ (fun chain hmem => ?_)
        rcases List.mem_append.mp hmem with hmem | hmem
        · split at hmem <;> simp at hmem
        · simp at hmem
      | MacroStatement.invoke (Invoke.builtinCodeSize r) =>
        simp only at h
        injection h with h
        subst h
        refine chainsClosed_of_no_rec _ (fun chain hmem => ?_)
        rcases List.mem_append.mp hmem with hmem | hmem
        · split at hmem <;> simp at hmem
        · split at hmem <;> simp at hmem
      | MacroStatement.invoke (Invoke.builtinCodeOffset r) =>
        simp only at h
        injection h with h
        subst h
        refine chainsClosed_of_no_rec _ (fun chain hmem => ?_)
        rcases List.mem_append.mp hmem with hmem | hmem
        · split at hmem <;> simp at hmem
        · split at hmem <;> simp at hmem
      | MacroStatement.invoke (Invoke.builtinFuncSig r) =>
        simp only at h
        injection h with h
        subst h
        refine chainsClosed_of_no_rec _ (fun chain hmem => ?_)
        rcases List.mem_append.mp hmem with hmem | hmem
        · split at hmem <;> simp at hmem
        · simp at hmem
      | MacroStatement.invoke (Invoke.builtinError r) =>
        simp only at h
        injection h with h
        subst h
        refine chainsClosed_of_no_rec _ (fun chain hmem => ?_)
        rcases List.mem_append.mp hmem with hmem | hmem
        · split at hmem <;> simp at hmem
        · simp at hmem
      | MacroStatement.invoke (Invoke.builtinEventHash r) =>
        simp only at h
        injection h with h
        subst h
        refine chainsClosed_of_no_rec _ (fun chain hmem => ?_)
        rcases List.mem_append.mp hmem with hmem | hmem
        · split at hmem <;> simp at hmem
        · simp at hmem
    · intro gd m ls inv name args ts out hgd hts hinv h
      simp only [analyzeTargets] at h
      match ts with
      | [] =>
        simp at h
        rw [← h]
        exact chainsClosed_nil
      | t :: rest =>
        simp only at h
        rcases heq1 : analyzeMacro gd fuel t ls inv with _ | r1
        · rw [heq1] at h; exact absurd h (by simp)
        · rw [heq1] at h
          obtain ⟨ds1, ws1, ls1⟩ := r1
          rcases heq2 : analyzeTargets gd fuel m ls1 inv name args rest with _ | r2
          · simp only [heq2] at h; exact absurd h (by simp)
          · simp only [heq2] at h
            obtain ⟨ds2, ws2, ls2⟩ := r2
            injection h with h
            subst h
            refine chainsClosed_append _ _ (chainsClosed_append _ _ ?_ ?_) ?_
            · refine chainsClosed_of_no_rec _ (fun chain hmem => ?_)
              split at hmem <;> simp at hmem
            · refine ihM gd t ls inv (ds1, ws1, ls1) hgd (Or.inr ?_) heq1
              obtain ⟨pLast, h1, h2⟩ := hinv
              exact ⟨pLast, h1, by rw [h2, hts t (by simp)]⟩
            · exact ihT gd m ls1 inv name args rest (ds2, ws2, ls2) hgd
                (fun u hu => hts u (by simp [hu])) hinv heq2


/-! # Claim C4 -/

/-- C4 counterexample: with `MAIN { A() }` and `A { A() }`, the one reported
chain is the entire invocation stack `[(MAIN, "A"), (A, "A")]`; its final
invoked name `A` differs from the first caller's name `MAIN`, so the chain
does not close head-to-tail.  And with `MAIN { A() A() }` the single cycle
`A → A` is reported twice (once per invocation path), not exactly once. -/
theorem claim_C4_counterexample :
    analyzeEntryPoint (buildIdentMapBy Definition.ident
        [Definition.macroDef ⟨"MAIN", [], none,
          [MacroStatement.invoke (Invoke.macroInvoke "A" [])]⟩,
         Definition.macroDef ⟨"A", [], none,
          [MacroStatement.invoke (Invoke.macroInvoke "A" [])]⟩]) "MAIN" 10 =
      some ([AnalysisError.recursiveMacroInvocation
        [(⟨"MAIN", [], none, [MacroStatement.invoke (Invoke.macroInvoke "A" [])]⟩, "A"),
         (⟨"A", [], none, [MacroStatement.invoke (Invoke.macroInvoke "A" [])]⟩, "A")]], []) ∧
    ([(((⟨"MAIN", [], none, [MacroStatement.invoke (Invoke.macroInvoke "A" [])]⟩ : MacroDef), "A")),
      (((⟨"A", [], none, [MacroStatement.invoke (Invoke.macroInvoke "A" [])]⟩ : MacroDef), "A"))].getLast?.map
        Prod.snd = some "A") ∧
    ([(((⟨"MAIN", [], none, [MacroStatement.invoke (Invoke.macroInvoke "A" [])]⟩ : MacroDef), "A")),
      (((⟨"A", [], none, [MacroStatement.invoke (Invoke.macroInvoke "A" [])]⟩ : MacroDef), "A"))].head?.map
        (fun p => p.1.name) = some "MAIN") ∧
    ("A" : String) ≠ "MAIN" ∧
    (analyzeEntryPoint (buildIdentMapBy Definition.ident
        [Definition.macroDef ⟨"MAIN", [], none,
          [MacroStatement.invoke (Invoke.macroInvoke "A" []),
           MacroStatement.invoke (Invoke.macroInvoke "A" [])]⟩,
         Definition.macroDef ⟨"A", [], none,
          [MacroStatement.invoke (Invoke.macroInvoke "A" [])]⟩]) "MAIN" 10).map
      (fun out => (out.1.filter (fun d =>
        match d with
        | AnalysisError.recursiveMacroInvocation _ => true
        | _ => false)).length) = some 2 := by
  refine ⟨by decide, by decide, by decide, by decide, by decide⟩

/-- C4 amended: when analysis enters a macro whose name occurs among the
caller macros on the invocation stack, it emits exactly one
`RecursiveMacroInvocation` carrying the entire stack as the chain and does
not recurse further (no other diagnostics, no worklist additions, label
stack untouched).  In an ident-keyed definition map every analysed target
bears the name it was invoked under, so every reported chain is nonempty and
closes a cycle at *some* caller in it: the final invoked name equals that
caller's name (head-to-tail closure holds only when the entry point itself
lies on the cycle); one diagnostic is emitted per invocation path that
re-enters a macro, which can exceed one per cycle. -/
theorem claim_C4 :
    (∀ (fuel : Nat) (gd : GlobalDefs) (m : MacroDef) (ls : LabelStack Unit) (inv : InvokeStack),
      inv.any (fun p => p.1.name = m.name) = true →
      analyzeMacro gd (fuel + 1) m ls inv =
        some ([AnalysisError.recursiveMacroInvocation inv], [], ls)) ∧
    (∀ (defsList : List Definition) (name : String) (t : MacroDef),
      t ∈ macrosNamed (buildIdentMapBy Definition.ident defsList) name → t.name = name) ∧
    (∀ (fuel : Nat) (defsList : List Definition) (entry : String)
        (out : List AnalysisError × List String),
      analyzeEntryPoint (buildIdentMapBy Definition.ident defsList) entry fuel = some out →
      chainsClosed out.1) := by
  have hB : ∀ (defsList : List Definition) (name : String) (t : MacroDef),
      t ∈ macrosNamed (buildIdentMapBy Definition.ident defsList) name → t.name = name := by
    intro defsList name t ht
    simp only [macrosNamed, lookupDefs] at ht
    rw [buildIdentMapBy_alookup] at ht
    split at ht
    · simp at ht
    · simp only [Option.getD_some, List.mem_filterMap] at ht
      obtain ⟨d, hd, hdt⟩ := ht
      have hident := (List.mem_filter.mp hd).2
      match d, hdt with
      | Definition.macroDef t, rfl =>
        simpa [Definition.ident] using hident
  refine ⟨?_, hB, ?_⟩
  · intro fuel gd m ls inv h
    simp only [analyzeMacro]
    rw [if_pos h]
  · intro fuel defsList entry out h
    simp only [analyzeEntryPoint] at h
    rcases heq : (alookup (buildIdentMapBy Definition.ident defsList) entry).bind List.head?
      with _ | d
    · rw [heq] at h
      simp only at h
      injection h with h
      subst h
      intro chain hchain
      simp at hchain
    · rw [heq] at h
      match d with
      | Definition.macroDef ep =>
        simp only at h
        rcases heq2 : analyzeMacro (buildIdentMapBy Definition.ident defsList) fuel ep
            LabelStack.empty [] with _ | r
        · rw [heq2] at h; exact absurd h (by simp)
        · rw [heq2] at h
          obtain ⟨ds, ws, ls2⟩ := r
          injection h with h
          subst h
          have hclosed := (analysis_chains_closed fuel).1
            (buildIdentMapBy Definition.ident defsList) ep LabelStack.empty [] (ds, ws, ls2)
            (fun key t ht => hB defsList key t ht) (Or.inl rfl) heq2
          intro chain hchain
          simp only [List.mem_append] at hchain
          rcases hchain with hchain | hchain
          · split at hchain <;> simp at hchain
          · exact hclosed chain hchain
      | Definition.constant a b =>
        simp only at h
        injection h with h
        subst h
        intro chain hchain
        simp at hchain
      | Definition.jumptable a b c =>
        simp only at h
        injection h with h
        subst h
        intro chain hchain
        simp at hchain
      | Definition.codeTable a b =>
        simp only at h
        injection h with h
        subst h
        intro chain hchain
        simp at hchain
      | Definition.solFunction f =>
        simp only at h
        injection h with h
        subst h
        intro chain hchain
        simp at hchain
      | Definition.solEvent e =>
        simp only at h
        injection h with h
        subst h
        intro chain hchain
        simp at hchain
      | Definition.solError e =>
        simp only at h
        injection h with h
        subst h
        intro chain hchain
        simp at hchain

/-- C4 amended witness: a concrete re-entry — analysing `A { A() }` under an
invocation stack already containing caller `A` yields exactly the one
recursive diagnostic with the whole stack; and the entry analysis of
`MAIN { A() }` yields a closed chain. -/
theorem claim_C4_witness :
    ([((⟨"A", [], none, [MacroStatement.invoke (Invoke.macroInvoke "A" [])]⟩ : MacroDef),
       "A")].any (fun p => p.1.name = "A") = true) ∧
    analyzeMacro [] 4 ⟨"A", [], none, [MacroStatement.invoke (Invoke.macroInvoke "A" [])]⟩
        LabelStack.empty
        [(⟨"A", [], none, [MacroStatement.invoke (Invoke.macroInvoke "A" [])]⟩, "A")] =
      some ([AnalysisError.recursiveMacroInvocation
        [(⟨"A", [], none, [MacroStatement.invoke (Invoke.macroInvoke "A" [])]⟩, "A")]], [],
        LabelStack.empty) ∧
    chainsClosed [AnalysisError.recursiveMacroInvocation
      [(⟨"MAIN", [], none, [MacroStatement.invoke (Invoke.macroInvoke "A" [])]⟩, "A"),
       (⟨"A", [], none, [MacroStatement.invoke (Invoke.macroInvoke "A" [])]⟩, "A")]] := by
  refine ⟨by decide, ?_, ?_⟩
  · exact claim_C4.1 3 [] ⟨"A", [], none, [MacroStatement.invoke (Invoke.macroInvoke "A" [])]⟩
      LabelStack.empty
      [(⟨"A", [], none, [MacroStatement.invoke (Invoke.macroInvoke "A" [])]⟩, "A")] (by decide)
  · exact claim_C4.2.2 10
      [Definition.macroDef ⟨"MAIN", [], none,
        [MacroStatement.invoke (Invoke.macroInvoke "A" [])]⟩,
       Definition.macroDef ⟨"A", [], none,
        [MacroStatement.invoke (Invoke.macroInvoke "A" [])]⟩] "MAIN"
      ([AnalysisError.recursiveMacroInvocation
        [(⟨"MAIN", [], none, [MacroStatement.invoke (Invoke.macroInvoke "A" [])]⟩, "A"),
         (⟨"A", [], none, [MacroStatement.invoke (Invoke.macroInvoke "A" [])]⟩, "A")]], [])
      (by decide)


/-! ## `NotYetSupported` soundness lemmas -/

theorem nysBounded_nil : nysBounded [] := by
  intro i h
  simp at h

theorem nysBounded_append (a b : List AnalysisError)
    (ha : nysBounded a) (hb : nysBounded b) : nysBounded (a ++ b) := by
  intro i h
  rcases List.mem_append.mp h with h | h
  · exact ha i h
  · exact hb i h

theorem nysBounded_of_no_nys (a : List AnalysisError)
    (h : ∀ i, AnalysisError.notYetSupported i ∉ a) : nysBounded a := by
  intro i hmem
  exact absurd hmem (h i)

theorem analyzeInstr_no_nys (gd : GlobalDefs) (m : MacroDef) (ls : LabelStack Unit)
    (inv : InvokeStack) (i : Instruction) (intent : String) :
    AnalysisError.notYetSupported intent ∉ analyzeInstr gd m ls inv i := by
  match i with
  | Instruction.op o => simp [analyzeInstr]
  | Instruction.variablePush v => simp [analyzeInstr]
  | Instruction.labelReference l =>
    simp only [analyzeInstr]
    split <;> simp
  | Instruction.macroArgReference a =>
    simp only [analyzeInstr]
    split <;> simp
  | Instruction.constantReference c =>
    simp only [analyzeInstr]
    split <;> simp

theorem argFold_no_nys (gd : GlobalDefs) (m : MacroDef) (ls : LabelStack Unit)
    (inv : InvokeStack) (args : List Instruction) (intent : String) :
    AnalysisError.notYetSupported intent ∉
      args.foldr (fun a acc => analyzeInstr gd m ls inv a ++ acc) [] := by
  induction args with
  | nil => simp
  | cons a rest ih =>
    simp only [List.foldr_cons, List.mem_append]
    rintro (h | h)
    · exact analyzeInstr_no_nys gd m ls inv a intent h
    · exact ih h

theorem dupDiags_no_nys (mk : List String → AnalysisError)
    (hmk : ∀ g intent, mk g ≠ AnalysisError.notYetSupported intent)
    (groups : List (String × List String)) (intent : String) :
    AnalysisError.notYetSupported intent ∉ dupDiags mk groups := by
  intro h
  simp only [dupDiags, List.mem_filterMap] at h
  obtain ⟨g, _, hg⟩ := h
  split at hg
  · injection hg with hg
    exact hmk g.2 intent hg
  · exact absurd hg (by simp)

/-- Soundness of `NotYetSupported` intents: the macro analysis emits only
the table-builtin, parameterised-code-introspection, `__FUNC_SIG`/`__ERROR`
and `__EVENT_HASH` intents. -/
theorem analysis_nys_sound : ∀ fuel : Nat,
    (∀ gd m ls inv out, analyzeMacro gd fuel m ls inv = some out → nysBounded out.1) ∧
    (∀ gd m ls inv stmts out, analyzeStmts gd fuel m ls inv stmts = some out →
      nysBounded out.1) ∧
    (∀ gd m ls inv stmt out, analyzeStmt gd fuel m ls inv stmt = some out →
      nysBounded out.1) ∧
    (∀ gd m ls inv name args ts out,
      analyzeTargets gd fuel m ls inv name args ts = some out → nysBounded out.1) := by
  intro fuel
  induction fuel with
  | zero =>
    refine ⟨?_, ?_, ?_, ?_⟩
    · intro gd m ls inv out h; simp [analyzeMacro] at h
    · intro gd m ls inv stmts out h; simp [analyzeStmts] at h
    · intro gd m ls inv stmt out h; simp [analyzeStmt] at h
    · intro gd m ls inv name args ts out h; simp [analyzeTargets] at h
  | succ fuel ih =>
    obtain ⟨ihM, ihSs, ihS, ihT⟩ := ih
    refine ⟨?_, ?_, ?_, ?_⟩
    · intro gd m ls inv out h
      simp only [analyzeMacro] at h
      split at h
      · injection h with h
        subst h
        intro i hmem
        simp at hmem
      · rcases heq : analyzeStmts gd fuel m
            ((labelDefsOf m).foldl (fun s l => s.push l ()) ls.enterContext) inv m.body
          with _ | r
        · rw [heq] at h; exact absurd h (by simp)
        · rw [heq] at h
          obtain ⟨ds, ws, ls2⟩ := r
          injection h with h
          subst h
          refine nysBounded_append _ _ (nysBounded_append _ _ ?_ ?_) ?_
          · exact nysBounded_of_no_nys _ (fun i =>
              dupDiags_no_nys _ (fun g c => by simp) _ i)
          · exact nysBounded_of_no_nys _ (fun i =>
              dupDiags_no_nys _ (fun g c => by simp) _ i)
          · exact ihSs gd m _ inv m.body (ds, ws, ls2) heq
    · intro gd m ls inv stmts out h
      simp only [analyzeStmts] at h
      match stmts with
      | [] =>
        simp at h
        rw [← h]
        exact nysBounded_nil
      | stmt :: rest =>
        simp only at h
        rcases heq1 : analyzeStmt gd fuel m ls inv stmt with _ | r1
        · rw [heq1] at h; exact absurd h (by simp)
        · rw [heq1] at h
          obtain ⟨ds1, ws1, ls1⟩ := r1
          rcases heq2 : analyzeStmts gd fuel m ls1 inv rest with _ | r2
          · simp only [heq2] at h; exact absurd h (by simp)
          · simp only [heq2] at h
            obtain ⟨ds2, ws2, ls2⟩ := r2
            injection h with h
            subst h
            exact nysBounded_append _ _
              (ihS gd m ls inv stmt (ds1, ws1, ls1) heq1)
              (ihSs gd m ls1 inv rest (ds2, ws2, ls2) heq2)
    · intro gd m ls inv stmt out h
      simp only [analyzeStmt] at h
      match stmt with
      | MacroStatement.labelDefinition l =>
        simp at h
        rw [← h]
        exact nysBounded_nil
      | MacroStatement.instruction i =>
        simp at h
        rw [← h]
        exact nysBounded_of_no_nys _ (fun intent => analyzeInstr_no_nys gd m ls inv i intent)
      | MacroStatement.invoke (Invoke.macroInvoke name args) =>
        simp only at h
        rcases heq : analyzeTargets gd fuel m ls (inv ++ [(m, name)]) name args
            (macrosNamed gd name) with _ | r
        · rw [heq] at h; exact absurd h (by simp)
        · rw [heq] at h
          obtain ⟨ds, ws, ls1⟩ := r
          injection h with h
          subst h
          refine nysBounded_append _ _ (nysBounded_append _ _ ?_ ?_) ?_
          · exact nysBounded_of_no_nys _ (fun intent =>
              argFold_no_nys gd m ls inv args intent)
          · refine nysBounded_of_no_nys _ (fun intent hmem => ?_)
            split at hmem <;> simp at hmem
          · exact ihT gd m ls (inv ++ [(m, name)]) name args (macrosNamed gd name)
              (ds, ws, ls1) heq
      | MacroStatement.invoke (Invoke.builtinTableStart r) =>
        simp only at h
        injection h with h
        subst h
        intro i hmem
        rcases List.mem_append.mp hmem with hmem | hmem
        · split at hmem <;> simp at hmem
        · simp at hmem
          simp [hmem]
      | MacroStatement.invoke (Invoke.builtinTableSize r) =>
        simp only at h
        injection h with h
        subst h
        intro i hmem
        rcases List.mem_append.mp hmem with hmem | hmem
        · split at hmem <;> simp at hmem
        · simp at hmem
          simp [hmem]
      | MacroStatement.invoke (Invoke.builtinCodeSize r) =>
        simp only at h
        injection h with h
        subst h
        intro i hmem
        rcases List.mem_append.mp hmem with hmem | hmem
        · split at hmem <;> simp at hmem
        · split at hmem <;> simp at hmem
          simp [hmem]
      | MacroStatement.invoke (Invoke.builtinCodeOffset r) =>
        simp only at h
        injection h with h
        subst h
        intro i hmem
        rcases List.mem_append.mp hmem with hmem | hmem
        · split at hmem <;> simp at hmem
        · split at hmem <;> simp at hmem
          simp [hmem]
      | MacroStatement.invoke (Invoke.builtinFuncSig r) =>
        simp only at h
        injection h with h
        subst h
        intro i hmem
        rcases List.mem_append.mp hmem with hmem | hmem
        · split at hmem <;> simp at hmem
        · simp at hmem
          simp [hmem]
      | MacroStatement.invoke (Invoke.builtinError r) =>
        simp only at h
        injection h with h
        subst h
        intro i hmem
        rcases List.mem_append.mp hmem with hmem | hmem
        · split at hmem <;> simp at hmem
        · simp at hmem
          simp [hmem]
      | MacroStatement.invoke (Invoke.builtinEventHash r) =>
        simp only at h
        injection h with h
        subst h
        intro i hmem
        rcases List.mem_append.mp hmem with hmem | hmem
        · split at hmem <;> simp at hmem
        · simp at hmem
          simp [hmem]
    · intro gd m ls inv name args ts out h
      simp only [analyzeTargets] at h
      match ts with
      | [] =>
        simp at h
        rw [← h]
        exact nysBounded_nil
      | t :: rest =>
        simp only at h
        rcases heq1 : analyzeMacro gd fuel t ls inv with _ | r1
        · rw [heq1] at h; exact absurd h (by simp)
        · rw [heq1] at h
          obtain ⟨ds1, ws1, ls1⟩ := r1
          rcases heq2 : analyzeTargets gd fuel m ls1 inv name args rest with _ | r2
          · simp only [heq2] at h; exact absurd h (by simp)
          · simp only [heq2] at h
            obtain ⟨ds2, ws2, ls2⟩ := r2
            injection h with h
            subst h
            refine nysBounded_append _ _ (nysBounded_append _ _ ?_ ?_) ?_
            · refine nysBounded_of_no_nys _ (fun intent hmem => ?_)
              split at hmem <;> simp at hmem
            · exact ihM gd t ls inv (ds1, ws1, ls1) heq1
            · exact ihT gd m ls1 inv name args rest (ds2, ws2, ls2) heq2


/-! # Claim C2 -/

theorem nysIntents_append (a b : List AnalysisError) :
    nysIntents (a ++ b) = nysIntents a ++ nysIntents b := by
  simp [nysIntents]

/-- C2 counterexample: the entry point `MAIN { __FUNC_SIG(f) }`, with `f` a
matching Sol function definition, uses only macros plus `__FUNC_SIG`, yet
analysis emits `NotYetSupported{intent: "__FUNC_SIG and __ERROR"}`
(`analysis/src/lib.rs:270-273` emits it unconditionally in that arm). -/
theorem claim_C2_counterexample :
    analyzeEntryPoint (buildIdentMapBy Definition.ident
        [Definition.macroDef ⟨"MAIN", [], none,
          [MacroStatement.invoke (Invoke.builtinFuncSig "f")]⟩,
         Definition.solFunction ⟨"f", [], []⟩]) "MAIN" 10 =
      some ([AnalysisError.notYetSupported "__FUNC_SIG and __ERROR"], []) ∧
    nysIntents [AnalysisError.notYetSupported "__FUNC_SIG and __ERROR"] ≠ [] := by
  exact ⟨by decide, by decide⟩

/-- C2 amended: `NotYetSupported` is emitted by `main.rs` for every include
directive (intent `Huff '#include'`), and by analysis for **every**
occurrence of a table builtin (unconditionally), for `__codesize` /
`__codeoffset` exactly when the referenced macro has parameters, and — 
beyond the claim's list — for **every** occurrence of `__FUNC_SIG`,
`__ERROR` and `__EVENT_HASH`; no other intents are possible.  In particular
a program whose entry point uses `__FUNC_SIG`/`__ERROR`/`__EVENT_HASH` does
receive `NotYetSupported` diagnostics. -/
theorem claim_C2 :
    (∀ sections : List RootSection,
      (∀ i, AnalysisError.notYetSupported i ∈ includeErrors sections →
        i = "Huff \x27#include\x27") ∧
      (includeErrors sections).length = (sections.filter (fun s =>
        match s with
        | RootSection.includeSection _ => true
        | _ => false)).length) ∧
    (∀ (fuel : Nat) (gd : GlobalDefs) (m : MacroDef) (ls : LabelStack Unit)
        (inv : InvokeStack) (r : String) (out : _),
      analyzeStmt gd (fuel + 1) m ls inv
          (MacroStatement.invoke (Invoke.builtinTableSize r)) = some out →
        nysIntents out.1 = ["__tablesize and __tableoffset"]) ∧
    (∀ (fuel : Nat) (gd : GlobalDefs) (m : MacroDef) (ls : LabelStack Unit)
        (inv : InvokeStack) (r : String) (out : _),
      analyzeStmt gd (fuel + 1) m ls inv
          (MacroStatement.invoke (Invoke.builtinTableStart r)) = some out →
        nysIntents out.1 = ["__tablesize and __tableoffset"]) ∧
    (∀ (fuel : Nat) (gd : GlobalDefs) (m : MacroDef) (ls : LabelStack Unit)
        (inv : InvokeStack) (r : String) (out : _),
      analyzeStmt gd (fuel + 1) m ls inv
          (MacroStatement.invoke (Invoke.builtinCodeSize r)) = some out →
        nysIntents out.1 = (if (lookupDefs gd r).any (fun d =>
            match d with
            | Definition.macroDef mm => 0 < mm.args.length
            | _ => false) then ["code introspection for macros with arguments"] else [])) ∧
    (∀ (fuel : Nat) (gd : GlobalDefs) (m : MacroDef) (ls : LabelStack Unit)
        (inv : InvokeStack) (r : String) (out : _),
      analyzeStmt gd (fuel + 1) m ls inv
          (MacroStatement.invoke (Invoke.builtinCodeOffset r)) = some out →
        nysIntents out.1 = (if (lookupDefs gd r).any (fun d =>
            match d with
            | Definition.macroDef mm => 0 < mm.args.length
            | _ => false) then ["code introspection for macros with arguments"] else [])) ∧
    (∀ (fuel : Nat) (gd : GlobalDefs) (m : MacroDef) (ls : LabelStack Unit)
        (inv : InvokeStack) (r : String) (out : _),
      analyzeStmt gd (fuel + 1) m ls inv
          (MacroStatement.invoke (Invoke.builtinFuncSig r)) = some out →
        nysIntents out.1 = ["__FUNC_SIG and __ERROR"]) ∧
    (∀ (fuel : Nat) (gd : GlobalDefs) (m : MacroDef) (ls : LabelStack Unit)
        (inv : InvokeStack) (r : String) (out : _),
      analyzeStmt gd (fuel + 1) m ls inv
          (MacroStatement.invoke (Invoke.builtinError r)) = some out →
        nysIntents out.1 = ["__FUNC_SIG and __ERROR"]) ∧
    (∀ (fuel : Nat) (gd : GlobalDefs) (m : MacroDef) (ls : LabelStack Unit)
        (inv : InvokeStack) (r : String) (out : _),
      analyzeStmt gd (fuel + 1) m ls inv
          (MacroStatement.invoke (Invoke.builtinEventHash r)) = some out →
        nysIntents out.1 = ["__EVENT_HASH"]) ∧
    (∀ (fuel : Nat) (gd : GlobalDefs) (entry : String)
        (out : List AnalysisError × List String),
      analyzeEntryPoint gd entry fuel = some out → nysBounded out.1) := by
  refine ⟨?_, ?_, ?_, ?_, ?_, ?_, ?_, ?_, ?_⟩
  · intro sections
    constructor
    · intro i h
      simp only [includeErrors, List.mem_filterMap] at h
      obtain ⟨s, _, hs⟩ := h
      match s, hs with
      | RootSection.includeSection p, hs =>
        simp only at hs
        injection hs with hs
        injection hs with hs
        exact hs.symm
      | RootSection.definition d, hs => simp at hs
    · induction sections with
      | nil => rfl
      | cons s rest ih =>
        match s with
        | RootSection.includeSection p =>
          simpa [includeErrors, List.filter_cons] using ih
        | RootSection.definition d =>
          simpa [includeErrors, List.filter_cons] using ih
  · intro fuel gd m ls inv r out h
    simp only [analyzeStmt] at h
    injection h with h
    subst h
    rw [nysIntents_append]
    split <;> simp [nysIntents]
  · intro fuel gd m ls inv r out h
    simp only [analyzeStmt] at h
    injection h with h
    subst h
    rw [nysIntents_append]
    split <;> simp [nysIntents]
  · intro fuel gd m ls inv r out h
    simp only [analyzeStmt] at h
    injection h with h
    subst h
    rw [nysIntents_append]
    split <;> split <;> simp [nysIntents]
  · intro fuel gd m ls inv r out h
    simp only [analyzeStmt] at h
    injection h with h
    subst h
    rw [nysIntents_append]
    split <;> split <;> simp [nysIntents]
  · intro fuel gd m ls inv r out h
    simp only [analyzeStmt] at h
    injection h with h
    subst h
    rw [nysIntents_append]
    split <;> simp [nysIntents]
  · intro fuel gd m ls inv r out h
    simp only [analyzeStmt] at h
    injection h with h
    subst h
    rw [nysIntents_append]
    split <;> simp [nysIntents]
  · intro fuel gd m ls inv r out h
    simp only [analyzeStmt] at h
    injection h with h
    subst h
    rw [nysIntents_append]
    split <;> simp [nysIntents]
  · intro fuel gd entry out h
    simp only [analyzeEntryPoint] at h
    rcases heq : (alookup gd entry).bind List.head? with _ | d
    · rw [heq] at h
      simp only at h
      injection h with h
      subst h
      intro i hmem
      simp at hmem
    · rw [heq] at h
      match d with
      | Definition.macroDef ep =>
        simp only at h
        rcases heq2 : analyzeMacro gd fuel ep LabelStack.empty [] with _ | r
        · rw [heq2] at h; exact absurd h (by simp)
        · rw [heq2] at h
          obtain ⟨ds, ws, ls2⟩ := r
          injection h with h
          subst h
          have hb := (analysis_nys_sound fuel).1 gd ep LabelStack.empty [] (ds, ws, ls2) heq2
          intro i hmem
          simp only [List.mem_append] at hmem
          rcases hmem with hmem | hmem
          · split at hmem <;> simp at hmem
          · exact hb i hmem
      | Definition.constant a b =>
        simp only at h
        injection h with h
        subst h
        intro i hmem
        simp at hmem
      | Definition.jumptable a b c =>
        simp only at h
        injection h with h
        subst h
        intro i hmem
        simp at hmem
      | Definition.codeTable a b =>
        simp only at h
        injection h with h
        subst h
        intro i hmem
        simp at hmem
      | Definition.solFunction f =>
        simp only at h
        injection h with h
        subst h
        intro i hmem
        simp at hmem
      | Definition.solEvent e =>
        simp only at h
        injection h with h
        subst h
        intro i hmem
        simp at hmem
      | Definition.solError e =>
        simp only at h
        injection h with h
        subst h
        intro i hmem
        simp at hmem

/-- C2 amended witness: concrete arm runs — `__FUNC_SIG(f)` and
`__tablesize(t)` statements each emit their `NotYetSupported`, an include
emits its own, and a full entry-point run stays within the bounded intents. -/
theorem claim_C2_witness :
    nysIntents [AnalysisError.notYetSupported "__FUNC_SIG and __ERROR"] =
      ["__FUNC_SIG and __ERROR"] ∧
    nysIntents [AnalysisError.notYetSupported "__tablesize and __tableoffset"] =
      ["__tablesize and __tableoffset"] ∧
    includeErrors [RootSection.includeSection "other.huff"] =
      [AnalysisError.notYetSupported "Huff \x27#include\x27"] ∧
    nysBounded [AnalysisError.notYetSupported "__FUNC_SIG and __ERROR"] := by
  have hfs := claim_C2.2.2.2.2.2.1 9
    (buildIdentMapBy Definition.ident
      [Definition.macroDef ⟨"MAIN", [], none,
        [MacroStatement.invoke (Invoke.builtinFuncSig "f")]⟩,
       Definition.solFunction ⟨"f", [], []⟩])
    ⟨"MAIN", [], none, [MacroStatement.invoke (Invoke.builtinFuncSig "f")]⟩
    LabelStack.empty []
    "f" ([AnalysisError.notYetSupported "__FUNC_SIG and __ERROR"], [], LabelStack.empty)
    (by decide)
  have hts := claim_C2.2.1 9 [] ⟨"M", [], none, []⟩ LabelStack.empty [] "t"
    ([AnalysisError.definitionNotFound ⟨"M", [], none, []⟩ "table" "t",
      AnalysisError.notYetSupported "__tablesize and __tableoffset"], [], LabelStack.empty)
    (by decide)
  have hsound := claim_C2.2.2.2.2.2.2.2.2 10
    (buildIdentMapBy Definition.ident
      [Definition.macroDef ⟨"MAIN", [], none,
        [MacroStatement.invoke (Invoke.builtinFuncSig "f")]⟩,
       Definition.solFunction ⟨"f", [], []⟩]) "MAIN"
    ([AnalysisError.notYetSupported "__FUNC_SIG and __ERROR"], []) (by decide)
  have hinc := (claim_C2.1 [RootSection.includeSection "other.huff"]).1
    "Huff \x27#include\x27" (by decide)
  refine ⟨hfs, ?_, ?_, hsound⟩
  · rw [← hts]
    decide
  · rw [hinc]
    decide


/-! ## Expansion worklist / mark invariants (claim C10) -/

theorem mintTables_ids (defs : List (String × Definition)) :
    ∀ c : Nat,
      (∀ t ∈ (mintTables defs c).1, c ≤ t.startId ∧ c ≤ t.endId) ∧
      c ≤ (mintTables defs c).2 := by
  induction defs with
  | nil => intro c; exact ⟨by simp [mintTables], Nat.le_refl c⟩
  | cons p rest ih =>
    intro c
    obtain ⟨k, d⟩ := p
    match d with
    | Definition.codeTable name data =>
      have hrec := ih (c + 2)
      constructor
      · intro t ht
        rw [show mintTables ((k, Definition.codeTable name data) :: rest) c =
          (⟨name, false, c, c + 1, data⟩ :: (mintTables rest (c + 2)).1,
            (mintTables rest (c + 2)).2) from rfl] at ht
        rcases List.mem_cons.mp ht with ht | ht
        · subst ht
          exact ⟨Nat.le_refl c, Nat.le_succ c⟩
        · have := hrec.1 t ht
          omega
      · rw [show mintTables ((k, Definition.codeTable name data) :: rest) c =
          (⟨name, false, c, c + 1, data⟩ :: (mintTables rest (c + 2)).1,
            (mintTables rest (c + 2)).2) from rfl]
        have := hrec.2
        omega
    | Definition.macroDef mm => exact ih c
    | Definition.constant a b => exact ih c
    | Definition.jumptable a b c2 => exact ih c
    | Definition.solFunction f => exact ih c
    | Definition.solEvent e => exact ih c
    | Definition.solError e => exact ih c

theorem setTableReferenced_ids (ts : List IncludedCodeTable) (r : String)
    (t2 : IncludedCodeTable) (h : t2 ∈ setTableReferenced ts r) :
    ∃ t ∈ ts, t2.startId = t.startId ∧ t2.endId = t.endId := by
  induction ts with
  | nil => simp [setTableReferenced] at h
  | cons t rest ih =>
    simp only [setTableReferenced] at h
    split at h
    · rcases List.mem_cons.mp h with h | h
      · subst h
        exact ⟨t, by simp, rfl, rfl⟩
      · exact ⟨t2, by simp [h], rfl, rfl⟩
    · rcases List.mem_cons.mp h with h | h
      · subst h
        exact ⟨t2, by simp, rfl, rfl⟩
      · obtain ⟨t3, ht3, he⟩ := ih h
        exact ⟨t3, by simp [ht3], he⟩

theorem alookup_mem {α : Type} (m : List (String × α)) (key : String) (v : α)
    (h : alookup m key = some v) : (key, v) ∈ m := by
  induction m with
  | nil => exact absurd h (by simp [alookup])
  | cons p rest ih =>
    obtain ⟨k, w⟩ := p
    simp only [alookup] at h
    split at h
    · injection h with h
      subst h
      rename_i hk
      subst hk
      exact List.mem_cons_self _ _
    · exact List.mem_cons_of_mem _ (ih h)

/-- `instruction_to_asm` never produces a raw `Mark` item. -/
theorem instructionToAsm_not_mark (g : CompileGlobals) (args : List (String × Asm))
    (ls : LabelStack Nat) (i : Instruction) (a : Asm) (id : Nat)
    (hargs : ∀ p ∈ args, ∀ id2, p.2 ≠ Asm.mark id2)
    (h : instructionToAsm g args ls i = some a) : a ≠ Asm.mark id := by
  match i with
  | Instruction.op o =>
    injection h with h
    subst h
    simp
  | Instruction.variablePush v =>
    injection h with h
    subst h
    simp [u256ToAsm]
  | Instruction.labelReference name =>
    simp only [instructionToAsm] at h
    rcases heq : ls.get name with _ | mk
    · rw [heq] at h; exact absurd h (by simp)
    · rw [heq] at h
      injection h with h
      subst h
      simp [Asm.mref]
  | Instruction.constantReference name =>
    simp only [instructionToAsm] at h
    rcases heq : alookup g.constants name with _ | v
    · rw [heq] at h; exact absurd h (by simp)
    · rw [heq] at h
      injection h with h
      subst h
      simp [u256ToAsm]
  | Instruction.macroArgReference name =>
    simp only [instructionToAsm] at h
    exact hargs (name, a) (List.mem_reverse.mp (alookup_mem args.reverse name a h)) id


theorem mintLabels_marks (body : List MacroStatement) :
    ∀ st : GenState,
      st.marks ≤ (mintLabels body st).marks ∧
      ∀ p ∈ (mintLabels body st).labels.stack, p ∈ st.labels.stack ∨ st.marks ≤ p.2 := by
  induction body with
  | nil => intro st; exact ⟨Nat.le_refl _, fun p hp => Or.inl hp⟩
  | cons stmt rest ih =>
    intro st
    match stmt with
    | MacroStatement.labelDefinition name =>
      obtain ⟨hm, hs⟩ :=
        ih { st with labels := st.labels.push name st.marks, marks := st.marks + 1 }
      refine ⟨Nat.le_trans (Nat.le_succ _) hm, ?_⟩
      intro p hp
      rcases hs p hp with hp2 | hp2
      · rcases List.mem_cons.mp hp2 with hp3 | hp3
        · subst hp3
          exact Or.inr (Nat.le_refl _)
        · exact Or.inl hp3
      · exact Or.inr (Nat.le_trans (Nat.le_succ _) hp2)
    | MacroStatement.instruction i => exact ih st
    | MacroStatement.invoke iv => exact ih st

theorem genInv_leaveContext (e : String) (st : GenState) (h : genInv e st) :
    genInv e { st with labels := st.labels.leaveContext } := by
  obtain ⟨h1, h2, h3, h4, h5⟩ := h
  refine ⟨h1, ?_, h3, h4, h5⟩
  intro p hp
  apply h2
  simp only [LabelStack.leaveContext] at hp
  rcases hcs : st.labels.contextSizes with _ | ⟨n, cs⟩
  · rw [hcs] at hp
    exact hp
  · rw [hcs] at hp
    exact List.mem_of_mem_drop hp

theorem labelStack_get_ge (ls : LabelStack Nat) (name : String) (mk : Nat)
    (hstack : ∀ p ∈ ls.stack, 2 ≤ p.2) (h : ls.get name = some mk) : 2 ≤ mk := by
  simp only [LabelStack.get] at h
  rcases hf : ls.stack.find? (fun p => p.1 = name) with _ | p
  · rw [hf] at h; exact absurd h (by simp)
  · rw [hf] at h
    simp at h
    subst h
    exact hstack p (List.mem_of_find?_eq_some hf)

theorem mapM_mem_exists {α β : Type} (f : α → Option β) :
    ∀ (l : List α) (vals : List β), l.mapM f = some vals →
      ∀ v ∈ vals, ∃ x ∈ l, f x = some v := by
  intro l
  induction l with
  | nil =>
    intro vals h v hv
    simp only [List.mapM_nil, Option.pure_def, Option.some.injEq] at h
    subst h
    simp at hv
  | cons x xs ih =>
    intro vals h v hv
    rw [List.mapM_cons] at h
    rcases hx : f x with _ | b
    · rw [hx] at h; exact absurd h (by simp)
    · rw [hx] at h
      rcases hxs : xs.mapM f with _ | bs
      · rw [hxs] at h; exact absurd h (by simp)
      · rw [hxs] at h
        simp at h
        subst h
        rcases List.mem_cons.mp hv with hv | hv
        · subst hv
          exact ⟨x, by simp, hx⟩
        · obtain ⟨y, hy, hfy⟩ := ih bs hxs v hv
          exact ⟨y, by simp [hy], hfy⟩

theorem genInv_append_asm (e : String) (st : GenState) (items : List Asm)
    (h : genInv e st) (hits : ∀ id, Asm.mark id ∈ items → 2 ≤ id) :
    genInv e { st with asm := st.asm ++ items } := by
  obtain ⟨h1, h2, h3, h4, h5⟩ := h
  obtain ⟨rest, hasm, hrest⟩ := h5
  refine ⟨h1, h2, h3, h4, rest ++ items, ?_, ?_⟩
  · show st.asm ++ items = Asm.mark 0 :: (rest ++ items)
    rw [hasm]
    rfl
  · intro id hid
    rcases List.mem_append.mp hid with hid | hid
    · exact hrest id hid
    · exact hits id hid

/-- Fuel-indexed invariant preservation for the three mutual expansion
functions: provided the incoming argument values contain no raw marks, the
`generate_for_*` family preserves `genInv`. -/
theorem gen_inv : ∀ fuel : Nat, ∀ e : String,
    (∀ g cur argv st st2, genInv e st →
        (∀ a ∈ argv, ∀ id, a ≠ Asm.mark id) →
        genMacro g fuel cur argv st = some st2 → genInv e st2) ∧
    (∀ g cur args st stmts st2, genInv e st →
        (∀ p ∈ args, ∀ id, (p : String × Asm).2 ≠ Asm.mark id) →
        genStmts g fuel cur args st stmts = some st2 → genInv e st2) ∧
    (∀ g cur args st stmt st2, genInv e st →
        (∀ p ∈ args, ∀ id, (p : String × Asm).2 ≠ Asm.mark id) →
        genStmt g fuel cur args st stmt = some st2 → genInv e st2) := by
  intro fuel
  induction fuel with
  | zero =>
    intro e
    refine ⟨?_, ?_, ?_⟩
    · intro g cur argv st st2 _ _ h
      simp [genMacro] at h
    · intro g cur args st stmts st2 _ _ h
      simp [genStmts] at h
    · intro g cur args st stmt st2 _ _ h
      simp [genStmt] at h
  | succ fuel ih =>
    intro e
    obtain ⟨ihM, ihSs, ihS⟩ := ih e
    refine ⟨?_, ?_, ?_⟩
    · intro g cur argv st st2 hinv hargv h
      simp only [genMacro] at h
      rcases heq : genStmts g fuel cur (cur.args.zip argv)
          (mintLabels cur.body { st with labels := st.labels.enterContext }) cur.body with _ | r
      · rw [heq] at h; exact absurd h (by simp)
      · rw [heq] at h
        injection h with h
        subst h
        have hst1 : genInv e (mintLabels cur.body { st with labels := st.labels.enterContext }) := by
          obtain ⟨h1, h2, h3, h4, h5⟩ := hinv
          obtain ⟨extra, e1, e2, e3, e4, e5⟩ :=
            mintLabels_shape cur.body { st with labels := st.labels.enterContext }
          obtain ⟨m1, m2⟩ := mintLabels_marks cur.body { st with labels := st.labels.enterContext }
          refine ⟨Nat.le_trans h1 m1, ?_, ?_, ?_, ?_⟩
          · intro p hp
            rcases m2 p hp with hp2 | hp2
            · exact h2 p hp2
            · exact Nat.le_trans h1 hp2
          · rw [e3]; exact h3
          · rw [e4]; exact h4
          · rw [e5]; exact h5
        have hargs2 : ∀ p ∈ cur.args.zip argv, ∀ id, (p : String × Asm).2 ≠ Asm.mark id := by
          intro p hp id
          obtain ⟨a, b⟩ := p
          exact hargv b (List.of_mem_zip hp).2 id
        exact genInv_leaveContext e r (ihSs g cur (cur.args.zip argv) _ cur.body r hst1 hargs2 heq)
    · intro g cur args st stmts st2 hinv hargs h
      simp only [genStmts] at h
      match stmts with
      | [] =>
        simp at h
        rw [← h]
        exact hinv
      | stmt :: rest =>
        simp only at h
        rcases heq1 : genStmt g fuel cur args st stmt with _ | st1
        · rw [heq1] at h; exact absurd h (by simp)
        · rw [heq1] at h
          exact ihSs g cur args st1 rest st2 (ihS g cur args st stmt st1 hinv hargs heq1) hargs h
    · intro g cur args st stmt st2 hinv hargs h
      simp only [genStmt] at h
      match stmt with
      | MacroStatement.labelDefinition name =>
        simp only at h
        rcases heq : st.labels.get name with _ | mk
        · rw [heq] at h; exact absurd h (by simp)
        · rw [heq] at h
          injection h with h
          subst h
          have hmk : 2 ≤ mk := labelStack_get_ge st.labels name mk hinv.2.1 heq
          refine genInv_append_asm e st _ hinv ?_
          intro id hid
          simp at hid
          subst hid
          exact hmk
      | MacroStatement.instruction i =>
        simp only at h
        rcases heq : instructionToAsm g args st.labels i with _ | a
        · rw [heq] at h; exact absurd h (by simp)
        · rw [heq] at h
          injection h with h
          subst h
          refine genInv_append_asm e st _ hinv ?_
          intro id hid
          simp at hid
          exact absurd hid.symm (instructionToAsm_not_mark g args st.labels i a id hargs heq)
      | MacroStatement.invoke (Invoke.macroInvoke name margs) =>
        simp only at h
        rcases heq : alookup g.defs name with _ | d
        · rw [heq] at h; exact absurd h (by simp)
        · rw [heq] at h
          match d with
          | Definition.macroDef target =>
            simp only at h
            rcases heq2 : margs.mapM (instructionToAsm g args st.labels) with _ | vals
            · rw [heq2] at h; exact absurd h (by simp)
            · rw [heq2] at h
              have hvals : ∀ v ∈ vals, ∀ id, v ≠ Asm.mark id := by
                intro v hv id
                obtain ⟨i2, hi2, hfi⟩ :=
                  mapM_mem_exists (instructionToAsm g args st.labels) margs vals heq2 v hv
                exact instructionToAsm_not_mark g args st.labels i2 v id hargs hfi
              exact ihM g target vals st st2 hinv hvals h
          | Definition.constant a b => exact absurd h (by simp)
          | Definition.jumptable a b c => exact absurd h (by simp)
          | Definition.codeTable a b => exact absurd h (by simp)
          | Definition.solFunction f => exact absurd h (by simp)
          | Definition.solEvent ev => exact absurd h (by simp)
          | Definition.solError ev => exact absurd h (by simp)
      | MacroStatement.invoke (Invoke.builtinCodeSize r) =>
        simp only at h
        rcases heq : st.includedMacros.find? (fun im => im.name = r) with _ | im
        · rw [heq] at h
          injection h with h
          subst h
          obtain ⟨h1, h2, h3, h4, h5⟩ := hinv
          obtain ⟨tl, hm, htl⟩ := h3
          obtain ⟨rest, hasm, hrest⟩ := h5
          refine ⟨?_, h2, ?_, h4, ?_⟩
          · show 2 ≤ st.marks + 2
            omega
          · refine ⟨tl ++ [⟨r, st.marks, st.marks + 1⟩], ?_, ?_⟩
            · show st.includedMacros ++ [(⟨r, st.marks, st.marks + 1⟩ : IncludedMacro)] =
                (⟨e, 0, 1⟩ : IncludedMacro) :: (tl ++ [⟨r, st.marks, st.marks + 1⟩])
              rw [hm]
              rfl
            · intro im2 him2
              rcases List.mem_append.mp him2 with him2 | him2
              · exact htl im2 him2
              · simp at him2
                subst him2
                have hhead := (List.find?_eq_none.mp heq) ⟨e, 0, 1⟩
                  (by rw [hm]; exact List.mem_cons_self _ _)
                simp at hhead
                exact ⟨h1, Nat.le_succ_of_le h1, fun hc => hhead hc.symm⟩
          · refine ⟨rest ++ [Asm.ref (⟨r, st.marks, st.marks + 1⟩ : IncludedMacro).sizeRef], ?_, ?_⟩
            · show st.asm ++ _ = Asm.mark 0 ::
                (rest ++ [Asm.ref (⟨r, st.marks, st.marks + 1⟩ : IncludedMacro).sizeRef])
              rw [hasm]
              rfl
            · intro id hid
              rcases List.mem_append.mp hid with hid | hid
              · exact hrest id hid
              · simp [IncludedMacro.sizeRef] at hid
        · rw [heq] at h
          injection h with h
          subst h
          refine genInv_append_asm e st _ hinv ?_
          intro id hid
          simp [IncludedMacro.sizeRef] at hid
      | MacroStatement.invoke (Invoke.builtinCodeOffset r) =>
        simp only at h
        rcases heq : st.includedMacros.find? (fun im => im.name = r) with _ | im
        · rw [heq] at h
          injection h with h
          subst h
          obtain ⟨h1, h2, h3, h4, h5⟩ := hinv
          obtain ⟨tl, hm, htl⟩ := h3
          obtain ⟨rest, hasm, hrest⟩ := h5
          refine ⟨?_, h2, ?_, h4, ?_⟩
          · show 2 ≤ st.marks + 2
            omega
          · refine ⟨tl ++ [⟨r, st.marks, st.marks + 1⟩], ?_, ?_⟩
            · show st.includedMacros ++ [(⟨r, st.marks, st.marks + 1⟩ : IncludedMacro)] =
                (⟨e, 0, 1⟩ : IncludedMacro) :: (tl ++ [⟨r, st.marks, st.marks + 1⟩])
              rw [hm]
              rfl
            · intro im2 him2
              rcases List.mem_append.mp him2 with him2 | him2
              · exact htl im2 him2
              · simp at him2
                subst him2
                have hhead := (List.find?_eq_none.mp heq) ⟨e, 0, 1⟩
                  (by rw [hm]; exact List.mem_cons_self _ _)
                simp at hhead
                exact ⟨h1, Nat.le_succ_of_le h1, fun hc => hhead hc.symm⟩
          · refine ⟨rest ++ [Asm.ref (⟨r, st.marks, st.marks + 1⟩ : IncludedMacro).startRef], ?_, ?_⟩
            · show st.asm ++ _ = Asm.mark 0 ::
                (rest ++ [Asm.ref (⟨r, st.marks, st.marks + 1⟩ : IncludedMacro).startRef])
              rw [hasm]
              rfl
            · intro id hid
              rcases List.mem_append.mp hid with hid | hid
              · exact hrest id hid
              · simp [IncludedMacro.startRef] at hid
        · rw [heq] at h
          injection h with h
          subst h
          refine genInv_append_asm e st _ hinv ?_
          intro id hid
          simp [IncludedMacro.startRef] at hid
      | MacroStatement.invoke (Invoke.builtinTableStart r) =>
        simp only at h
        rcases heq : st.includedTables.find? (fun t => t.name = r) with _ | t
        · rw [heq] at h; exact absurd h (by simp)
        · rw [heq] at h
          injection h with h
          subst h
          obtain ⟨h1, h2, h3, h4, h5⟩ := hinv
          obtain ⟨rest, hasm, hrest⟩ := h5
          refine ⟨h1, h2, h3, ?_, rest ++ [Asm.ref t.startRef], ?_, ?_⟩
          · intro t2 ht2
            obtain ⟨t3, ht3, hs, he2⟩ := setTableReferenced_ids st.includedTables r t2 ht2
            have h43 := h4 t3 ht3
            exact ⟨by rw [hs]; exact h43.1, by rw [he2]; exact h43.2⟩
          · show st.asm ++ _ = Asm.mark 0 :: (rest ++ [Asm.ref t.startRef])
            rw [hasm]
            rfl
          · intro id hid
            rcases List.mem_append.mp hid with hid | hid
            · exact hrest id hid
            · simp [IncludedCodeTable.startRef] at hid
      | MacroStatement.invoke (Invoke.builtinTableSize r) =>
        simp only at h
        rcases heq : st.includedTables.find? (fun t => t.name = r) with _ | t
        · rw [heq] at h; exact absurd h (by simp)
        · rw [heq] at h
          injection h with h
          subst h
          obtain ⟨h1, h2, h3, h4, h5⟩ := hinv
          obtain ⟨rest, hasm, hrest⟩ := h5
          refine ⟨h1, h2, h3, ?_, rest ++ [Asm.ref t.sizeRef], ?_, ?_⟩
          · intro t2 ht2
            obtain ⟨t3, ht3, hs, he2⟩ := setTableReferenced_ids st.includedTables r t2 ht2
            have h43 := h4 t3 ht3
            exact ⟨by rw [hs]; exact h43.1, by rw [he2]; exact h43.2⟩
          · show st.asm ++ _ = Asm.mark 0 :: (rest ++ [Asm.ref t.sizeRef])
            rw [hasm]
            rfl
          · intro id hid
            rcases List.mem_append.mp hid with hid | hid
            · exact hrest id hid
            · simp [IncludedCodeTable.sizeRef] at hid
      | MacroStatement.invoke (Invoke.builtinFuncSig r) =>
        simp only at h
        rcases heq : alookup g.defs r with _ | d
        · rw [heq] at h; exact absurd h (by simp)
        · rw [heq] at h
          match d with
          | Definition.solFunction f =>
            simp only at h
            rcases heq2 : computeSelectorBytes f.name f.args with _ | sel
            · rw [heq2] at h; exact absurd h (by simp)
            · rw [heq2] at h
              injection h with h
              subst h
              refine genInv_append_asm e st _ hinv ?_
              intro id hid
              simp [u256ToAsm] at hid
          | Definition.macroDef mm => exact absurd h (by simp)
          | Definition.constant a b => exact absurd h (by simp)
          | Definition.jumptable a b c => exact absurd h (by simp)
          | Definition.codeTable a b => exact absurd h (by simp)
          | Definition.solEvent ev => exact absurd h (by simp)
          | Definition.solError ev => exact absurd h (by simp)
      | MacroStatement.invoke (Invoke.builtinEventHash r) => simp at h
      | MacroStatement.invoke (Invoke.builtinError r) => simp at h

theorem drainMacros_marks : ∀ (fuel : Nat) (assemble : List Asm → List Nat)
    (g : CompileGlobals) (pending : List IncludedMacro) (out : List Asm),
    (∀ im ∈ pending, 2 ≤ im.startId ∧ 2 ≤ im.endId) →
    drainMacros assemble g fuel pending = some out →
    ∀ id, Asm.mark id ∈ out → 2 ≤ id := by
  intro fuel
  induction fuel with
  | zero =>
    intro assemble g pending out _ h
    simp [drainMacros] at h
  | succ fuel ih =>
    intro assemble g pending out hp h
    simp only [drainMacros] at h
    match pending with
    | [] =>
      simp at h
      subst h
      intro id hid
      simp at hid
    | im :: rest =>
      simp only at h
      rcases heq : alookup g.defs im.name with _ | d
      · rw [heq] at h; exact absurd h (by simp)
      · rw [heq] at h
        match d with
        | Definition.macroDef sm =>
          simp only at h
          rcases heq2 : genEntrypointAsm assemble g fuel sm with _ | inner
          · rw [heq2] at h; exact absurd h (by simp)
          · rw [heq2] at h
            rcases heq3 : drainMacros assemble g fuel rest with _ | restAsm
            · rw [heq3] at h; exact absurd h (by simp)
            · rw [heq3] at h
              injection h with h
              subst h
              intro id hid
              have him := hp im (List.mem_cons_self _ _)
              simp only [List.cons_append, List.nil_append, List.mem_cons] at hid
              rcases hid with hid | hid | hid | hid
              · injection hid with hid
                subst hid
                exact him.1
              · exact absurd hid (by simp)
              · injection hid with hid
                subst hid
                exact him.2
              · exact ih assemble g rest restAsm
                  (fun im2 h2 => hp im2 (List.mem_cons_of_mem _ h2)) heq3 id hid
        | Definition.constant a b => exact absurd h (by simp)
        | Definition.jumptable a b c => exact absurd h (by simp)
        | Definition.codeTable a b => exact absurd h (by simp)
        | Definition.solFunction f => exact absurd h (by simp)
        | Definition.solEvent ev => exact absurd h (by simp)
        | Definition.solError ev => exact absurd h (by simp)

theorem tableAsm_marks (ts : List IncludedCodeTable)
    (h : ∀ t ∈ ts, 2 ≤ t.startId ∧ 2 ≤ t.endId) :
    ∀ id, Asm.mark id ∈ ts.foldr
        (fun t acc => [Asm.mark t.startId, Asm.data t.data, Asm.mark t.endId] ++ acc) [] →
      2 ≤ id := by
  induction ts with
  | nil =>
    intro id hid
    simp at hid
  | cons t rest ih =>
    intro id hid
    have ht := h t (List.mem_cons_self _ _)
    simp only [List.foldr_cons, List.cons_append, List.nil_append, List.mem_cons] at hid
    rcases hid with hid | hid | hid | hid
    · injection hid with hid
      subst hid
      exact ht.1
    · exact absurd hid (by simp)
    · injection hid with hid
      subst hid
      exact ht.2
    · exact ih (fun t2 h2 => h t2 (List.mem_cons_of_mem _ h2)) id hid

theorem offsetOfMark_append_last (sz : Asm → Nat) (id : Nat) :
    ∀ mid : List Asm, Asm.mark id ∉ mid →
      offsetOfMark sz (mid ++ [Asm.mark id]) id = some (streamSize sz mid) := by
  intro mid
  induction mid with
  | nil =>
    intro _
    simp [offsetOfMark, streamSize]
  | cons a rest ih =>
    intro hnm
    have ha : a ≠ Asm.mark id := fun hc => hnm (List.mem_cons.mpr (Or.inl hc.symm))
    simp only [List.cons_append, offsetOfMark]
    rw [if_neg ha, List.append_eq, ih (fun hm2 => hnm (List.mem_cons_of_mem _ hm2))]
    simp [streamSize]

/-- A successful `generate_for_entrypoint` run dissected: nonzero fuel, the
entry expansion from the pre-registered initial state (entry first in the
worklist with marks 0/1, stream opened by `Mark 0`), `genInv` at its end, the
drain of the worklist minus its head, freshness of the drained marks, and the
final stream assembly. -/
theorem genEntrypoint_inv (assemble : List Asm → List Nat) (g : CompileGlobals) :
    ∀ (fuel : Nat) (entry : MacroDef) (out : List Asm),
    genEntrypointAsm assemble g fuel entry = some out →
    ∃ fuel2 st sectionAsm,
      fuel = fuel2 + 1 ∧
      genMacro g fuel2 entry []
        ⟨(mintTables g.defs 2).2, LabelStack.empty, [⟨entry.name, 0, 1⟩],
          (mintTables g.defs 2).1, [Asm.mark 0]⟩ = some st ∧
      genInv entry.name st ∧
      drainMacros assemble g fuel2 (st.includedMacros.drop 1) = some sectionAsm ∧
      (∀ id, Asm.mark id ∈ sectionAsm → 2 ≤ id) ∧
      out = st.asm ++ sectionAsm ++
        ((st.includedTables.filter (fun t => t.referenced)).foldr
          (fun t acc => [Asm.mark t.startId, Asm.data t.data, Asm.mark t.endId] ++ acc) []) ++
        [Asm.mark 1] := by
  intro fuel entry out h
  match fuel with
  | 0 => simp [genEntrypointAsm] at h
  | fuel + 1 =>
    simp only [genEntrypointAsm] at h
    rcases heq : genMacro g fuel entry []
        ⟨(mintTables g.defs 2).2, LabelStack.empty, [⟨entry.name, 0, 1⟩],
          (mintTables g.defs 2).1, [Asm.mark 0]⟩ with _ | st
    · rw [heq] at h; exact absurd h (by simp)
    · rw [heq] at h
      simp only at h
      rcases heq2 : drainMacros assemble g fuel (st.includedMacros.drop 1) with _ | sectionAsm
      · rw [heq2] at h; exact absurd h (by simp)
      · rw [heq2] at h
        simp only at h
        injection h with h
        have hinv0 : genInv entry.name
            ⟨(mintTables g.defs 2).2, LabelStack.empty, [⟨entry.name, 0, 1⟩],
              (mintTables g.defs 2).1, [Asm.mark 0]⟩ := by
          refine ⟨(mintTables_ids g.defs 2).2, ?_, ⟨[], rfl, ?_⟩, ?_, ⟨[], rfl, ?_⟩⟩
          · intro p hp
            simp [LabelStack.empty] at hp
          · intro im him
            simp at him
          · intro t ht
            exact (mintTables_ids g.defs 2).1 t ht
          · intro id hid
            simp at hid
        have hst := (gen_inv fuel entry.name).1 g entry [] _ st hinv0
          (by intro a ha; simp at ha) heq
        obtain ⟨tl, hm, htl⟩ := hst.2.2.1
        have hpend : ∀ im ∈ st.includedMacros.drop 1, 2 ≤ im.startId ∧ 2 ≤ im.endId := by
          intro im him
          rw [hm] at him
          simp only [List.drop_succ_cons, List.drop_zero] at him
          exact ⟨(htl im him).1, (htl im him).2.1⟩
        exact ⟨fuel, st, sectionAsm, rfl, heq, hst, heq2,
          drainMacros_marks fuel assemble g _ sectionAsm hpend heq2, h.symm⟩

/-! # Claim C10 -/

/-- C10: `generate_for_entrypoint` pre-registers the entry-point macro in the
included-macro worklist under its own name with start/end marks 0 and 1,
which bracket the entire output stream: every successful run yields
`Mark 0 :: mid ++ [Mark 1]` with every mark of `mid` fresh (≥ 2), so for
every item-size assignment that gives marks no bytes, mark 0 sits at offset 0
and mark 1 at the total stream size — hence the `Delta(0, 1)` and
`Direct(0)` references emitted for `__codesize(E)`/`__codeoffset(E)` on the
entry point `E` (second conjunct: the find-first hit on the pre-registered
head) resolve to the byte length of the whole final output and to offset 0.
Third conjunct: the worklist drain skips its first element — the entry — and
every drained worklist entry has a name different from the entry point, so
no separate data-section copy of `E` is ever emitted. -/
theorem claim_C10 :
    (∀ (assemble : List Asm → List Nat) (g : CompileGlobals) (fuel : Nat)
        (entry : MacroDef) (out : List Asm),
      genEntrypointAsm assemble g fuel entry = some out →
      ∃ mid, out = Asm.mark 0 :: (mid ++ [Asm.mark 1]) ∧
        (∀ id, Asm.mark id ∈ mid → 2 ≤ id) ∧
        ∀ sz : Asm → Nat, (∀ id, sz (Asm.mark id) = 0) →
          offsetOfMark sz out 0 = some 0 ∧
          offsetOfMark sz out 1 = some (streamSize sz out)) ∧
    (∀ (g : CompileGlobals) (fuel : Nat) (cur : MacroDef) (args : List (String × Asm))
        (st : GenState) (r : String) (st2 : GenState),
      st.includedMacros.head? = some ⟨r, 0, 1⟩ →
      (genStmt g (fuel + 1) cur args st (MacroStatement.invoke (Invoke.builtinCodeSize r)) =
          some st2 →
        st2 = { st with asm := st.asm ++ [Asm.ref ⟨RefType.delta 0 1, true, none⟩] }) ∧
      (genStmt g (fuel + 1) cur args st (MacroStatement.invoke (Invoke.builtinCodeOffset r)) =
          some st2 →
        st2 = { st with asm := st.asm ++ [Asm.ref ⟨RefType.direct 0, true, none⟩] })) ∧
    (∀ (assemble : List Asm → List Nat) (g : CompileGlobals) (fuel : Nat)
        (entry : MacroDef) (out : List Asm),
      genEntrypointAsm assemble g fuel entry = some out →
      ∃ st sectionAsm tableAsm,
        genMacro g (fuel - 1) entry []
          ⟨(mintTables g.defs 2).2, LabelStack.empty, [⟨entry.name, 0, 1⟩],
            (mintTables g.defs 2).1, [Asm.mark 0]⟩ = some st ∧
        st.includedMacros.head? = some ⟨entry.name, 0, 1⟩ ∧
        drainMacros assemble g (fuel - 1) (st.includedMacros.drop 1) = some sectionAsm ∧
        (∀ im ∈ st.includedMacros.drop 1, im.name ≠ entry.name) ∧
        out = st.asm ++ sectionAsm ++ tableAsm ++ [Asm.mark 1]) := by
  refine ⟨?_, ?_, ?_⟩
  · intro assemble g fuel entry out h
    obtain ⟨fuel2, st, sectionAsm, hf, hgm, hinv, hdr, hsec, hout⟩ :=
      genEntrypoint_inv assemble g fuel entry out h
    obtain ⟨rest, hasm, hrest⟩ := hinv.2.2.2.2
    have htab := tableAsm_marks (st.includedTables.filter (fun t => t.referenced))
      (fun t ht => hinv.2.2.2.1 t (List.mem_of_mem_filter ht))
    have hmid : ∀ id, Asm.mark id ∈ rest ++ (sectionAsm ++
        ((st.includedTables.filter (fun t => t.referenced)).foldr
          (fun t acc => [Asm.mark t.startId, Asm.data t.data, Asm.mark t.endId] ++ acc) [])) →
        2 ≤ id := by
      intro id hid
      rcases List.mem_append.mp hid with hid | hid
      · exact hrest id hid
      · rcases List.mem_append.mp hid with hid | hid
        · exact hsec id hid
        · exact htab id hid
    have houtshape : out = Asm.mark 0 :: ((rest ++ (sectionAsm ++
        ((st.includedTables.filter (fun t => t.referenced)).foldr
          (fun t acc => [Asm.mark t.startId, Asm.data t.data, Asm.mark t.endId] ++ acc) []))) ++
        [Asm.mark 1]) := by
      rw [hout, hasm]
      simp [List.append_assoc]
    refine ⟨_, houtshape, hmid, ?_⟩
    intro sz hsz
    have hm1 : Asm.mark 1 ∉ rest ++ (sectionAsm ++
        ((st.includedTables.filter (fun t => t.referenced)).foldr
          (fun t acc => [Asm.mark t.startId, Asm.data t.data, Asm.mark t.endId] ++ acc) [])) := by
      intro hc
      have := hmid 1 hc
      omega
    constructor
    · rw [houtshape]
      simp [offsetOfMark]
    · rw [houtshape]
      simp only [offsetOfMark]
      rw [if_neg (by simp), offsetOfMark_append_last sz 1 _ hm1]
      simp [streamSize, hsz]
  · intro g fuel cur args st r st2 hhd
    have hcons : ∃ tl, st.includedMacros = ⟨r, 0, 1⟩ :: tl := by
      rcases hml : st.includedMacros with _ | ⟨a, tl⟩
      · rw [hml] at hhd; simp at hhd
      · rw [hml] at hhd
        simp at hhd
        exact ⟨tl, by rw [hhd]⟩
    obtain ⟨tl, hml⟩ := hcons
    have hfind : st.includedMacros.find? (fun im => im.name = r) = some ⟨r, 0, 1⟩ := by
      rw [hml]
      simp [List.find?_cons]
    constructor
    · intro h
      simp only [genStmt] at h
      rw [hfind] at h
      injection h with h
      subst h
      rfl
    · intro h
      simp only [genStmt] at h
      rw [hfind] at h
      injection h with h
      subst h
      rfl
  · intro assemble g fuel entry out h
    obtain ⟨fuel2, st, sectionAsm, hf, hgm, hinv, hdr, hsec, hout⟩ :=
      genEntrypoint_inv assemble g fuel entry out h
    subst hf
    obtain ⟨tl, hm, htl⟩ := hinv.2.2.1
    refine ⟨st, sectionAsm, _, hgm, ?_, hdr, ?_, hout⟩
    · rw [hm]
      rfl
    · intro im him
      rw [hm] at him
      simp only [List.drop_succ_cons, List.drop_zero] at him
      exact (htl im him).2.2

/-- C10 witness: the one-macro program `gC10` (entry `MAIN` taking its own
`__codesize`) compiles to `outC10 = [Mark 0, Ref Delta(0,1), STOP, Mark 1]`;
under the sample size assignment `szC10` the claim places mark 0 at offset 0
and mark 1 at the full stream size, which evaluates to 3 bytes. -/
theorem claim_C10_witness :
    genEntrypointAsm (fun _ => []) gC10 10 mainC10 = some outC10 ∧
    offsetOfMark szC10 outC10 0 = some 0 ∧
    offsetOfMark szC10 outC10 1 = some (streamSize szC10 outC10) ∧
    streamSize szC10 outC10 = 3 := by
  have h : genEntrypointAsm (fun _ => []) gC10 10 mainC10 = some outC10 := by decide
  obtain ⟨mid, hout, hmid, hoff⟩ :=
    claim_C10.1 (fun _ => []) gC10 10 mainC10 outC10 h
  have hres := hoff szC10 (fun id => rfl)
  exact ⟨h, hres.1, hres.2, by decide⟩
